import Mathlib

/- Shallow embedding of `src/LRU_Cache.py`.

The Python module implements a capacity-bounded LRU cache (`LRUCache`)
as a dictionary index (`_data`) plus a doubly linked list threaded
through node objects, with two sentinel nodes (`_head` on the
most-recently-used side, `_tail` on the least-recently-used side), and
a memoizing decorator (`lru_cache_impl`) built on top of the cache.

Modelling choices:
- Python node objects live in an arena: `nodes` is an association list
  from numeric ids to node records, and every Python attribute
  assignment (`x.next = y`) becomes a point update of the arena.
- Python `None` in the `prev`/`next` slots becomes `Option.none`; the
  `_SENTINEL` marker stored in the sentinels' `key`/`val` slots becomes
  `Option.none` in an `Option`-typed field (real nodes carry `some`).
- The two sentinel objects created by `__init__` are the fixed arena
  ids `headId = 0` and `tailId = 1`; freshly constructed nodes receive
  the ids `2, 3, ...` from the `nextId` counter.
- Dictionary lookups compare keys with an explicit boolean equality
  `beq`, standing for Python `==` on keys, so that the memoizing
  wrapper's canonical keys (where `1 == 1.0` holds across types) are
  representable.  Python's unbounded `int` capacity is `Int`.
- The few places where the Python code would raise an uncaught
  exception on arguments it is never given (attribute access on `None`,
  `del` of a missing key) are marked below; there the model returns the
  state unchanged, and the operations of the public interface are
  proved never to reach those branches.
-/

/-- Arena lookup: association-list lookup with `Nat` ids. -/
def agetN {α : Type} : List (Nat × α) → Nat → Option α
  | [], _ => none
  | (j, a) :: l, i => if j = i then some a else agetN l i

/-- Arena update: replace the binding of `i` in place, or append it. -/
def asetN {α : Type} : List (Nat × α) → Nat → α → List (Nat × α)
  | [], i, a => [(i, a)]
  | (j, b) :: l, i, a => if j = i then (i, a) :: l else (j, b) :: asetN l i a

/-- Dictionary lookup under a boolean key equality (Python `dict.get`). -/
def agetB {K α : Type} (beq : K → K → Bool) : List (K × α) → K → Option α
  | [], _ => none
  | (k', a) :: l, k => if beq k k' then some a else agetB beq l k

/-- Dictionary insertion under a boolean key equality (Python `d[k] = a`). -/
def asetB {K α : Type} (beq : K → K → Bool) : List (K × α) → K → α → List (K × α)
  | [], k, a => [(k, a)]
  | (k', b) :: l, k, a => if beq k k' then (k, a) :: l else (k', b) :: asetB beq l k a

/-- Dictionary deletion under a boolean key equality (Python `del d[k]`). -/
def aeraseB {K α : Type} (beq : K → K → Bool) : List (K × α) → K → List (K × α)
  | [], _ => []
  | (k', a) :: l, k => if beq k k' then l else (k', a) :: aeraseB beq l k

/-- One cache entry (`_Node` in the source): `key`/`val` are `none`
exactly on the sentinel nodes, `prev`/`next` are arena ids. -/
structure Node (K V : Type) where
  key : Option K
  val : Option V
  prev : Option Nat
  next : Option Nat
deriving DecidableEq, Repr

/-- Arena id of the `_head` sentinel (most-recently-used side). -/
def headId : Nat := 0

/-- Arena id of the `_tail` sentinel (least-recently-used side). -/
def tailId : Nat := 1

/-- State of an `LRUCache` object: the node arena, the key index
`_data`, the stored `capacity`, and the next fresh arena id. -/
structure LRU (K V : Type) where
  nodes : List (Nat × Node K V)
  data : List (K × Nat)
  capacity : Int
  nextId : Nat
deriving DecidableEq, Repr

/-- Constructor `LRUCache.__init__`: two sentinels with `head.prev = tail` and
`tail.next = head`, an empty index, and the requested capacity (the
constructor performs no validation of `capacity`). -/
def LRU.init (K V : Type) (capacity : Int) : LRU K V :=
  { nodes := [(headId, ⟨none, none, some tailId, none⟩),
              (tailId, ⟨none, none, none, some headId⟩)],
    data := [],
    capacity := capacity,
    nextId := 2 }

/-- The node stored at id `i`. -/
def nodeAt {K V : Type} (s : LRU K V) (i : Nat) : Option (Node K V) :=
  agetN s.nodes i

/-- The `next` pointer of the node at id `i`. -/
def nxt {K V : Type} (s : LRU K V) (i : Nat) : Option Nat :=
  (nodeAt s i).bind Node.next

/-- The `prev` pointer of the node at id `i`. -/
def prv {K V : Type} (s : LRU K V) (i : Nat) : Option Nat :=
  (nodeAt s i).bind Node.prev

/-- The `key` field of the node at id `i`. -/
def keyAt {K V : Type} (s : LRU K V) (i : Nat) : Option K :=
  (nodeAt s i).bind Node.key

/-- The `val` field of the node at id `i`. -/
def valAt {K V : Type} (s : LRU K V) (i : Nat) : Option V :=
  (nodeAt s i).bind Node.val

/-- The Python assignment `<node i>.next = o`.  If no node with id `i`
exists the state is returned unchanged; the operations below only apply
it to ids of nodes they hold a reference to. -/
def setNxt {K V : Type} (s : LRU K V) (i : Nat) (o : Option Nat) : LRU K V :=
  match agetN s.nodes i with
  | none => s
  | some n => { s with nodes := asetN s.nodes i { n with next := o } }

/-- The Python assignment `<node i>.prev = o`. -/
def setPrv {K V : Type} (s : LRU K V) (i : Nat) (o : Option Nat) : LRU K V :=
  match agetN s.nodes i with
  | none => s
  | some n => { s with nodes := asetN s.nodes i { n with prev := o } }

/-- Method `LRUCache._remove`: read `prev`/`next` of the node once, then
`prev.next = next` (if `prev` is not `None`) and `next.prev = prev`
(if `next` is not `None`).  The node's own fields are not modified.
Python holds an object reference, so the node always exists at the
call sites (the `none` branch is never taken from the interface). -/
def LRU._remove {K V : Type} (s : LRU K V) (i : Nat) : LRU K V :=
  match agetN s.nodes i with
  | none => s
  | some n =>
    let s1 := match n.prev with
      | none => s
      | some p => setNxt s p n.next
    match n.next with
    | none => s1
    | some q => setPrv s1 q n.prev

/-- Method `LRUCache._move_front`: unlink the node, then splice it in right
before the `_head` sentinel with the source's four assignments in
order (`prev_head.next = node`, `node.prev = prev_head`,
`node.next = head`, `head.prev = node`).  In every reachable state
`head.prev` is a node, so the `none` branch (where Python would raise
an `AttributeError`) is never taken from the interface. -/
def LRU._move_front {K V : Type} (s : LRU K V) (i : Nat) : LRU K V :=
  let s1 := s._remove i
  match prv s1 headId with
  | none => s1
  | some ph =>
      setPrv (setNxt (setPrv (setNxt s1 ph (some i)) i (some ph)) i (some headId)) headId (some i)

/-- Method `LRUCache._pop`: take `tail.next` (the least-recently-used node),
unlink it, and return its id.  When `tail.next` is `None` (never the
case in a reachable state) Python would raise; the model returns
`none`. -/
def LRU._pop {K V : Type} (s : LRU K V) : Option Nat × LRU K V :=
  match nxt s tailId with
  | none => (none, s)
  | some i => (some i, s._remove i)

/-- Method `LRUCache.get`: look the key up in `_data`; on a miss return
`default` (the `None` default of the source, hence `Option V`), on a
hit move the node to the front and return its `val`. -/
def LRU.get {K V : Type} (beq : K → K → Bool) (s : LRU K V) (k : K) (default : Option V) :
    Option V × LRU K V :=
  match agetB beq s.data k with
  | none => (default, s)
  | some i =>
    let s1 := s._move_front i
    ((nodeAt s1 i).bind Node.val, s1)

/-- Method `LRUCache.put`: on an existing key, move its node to the front and
return the node's (unchanged) `val`; on a fresh key, allocate a node,
index it, move it to the front, and if the index has grown past
`capacity` pop the least-recently-used node and delete its key from
the index. -/
def LRU.put {K V : Type} (beq : K → K → Bool) (s : LRU K V) (k : K) (v : V) :
    Option V × LRU K V :=
  match agetB beq s.data k with
  | some i =>
    let s1 := s._move_front i
    ((nodeAt s1 i).bind Node.val, s1)
  | none =>
    let i := s.nextId
    let s1 : LRU K V :=
      { s with nodes := asetN s.nodes i ⟨some k, some v, none, none⟩, nextId := i + 1 }
    let s2 : LRU K V := { s1 with data := asetB beq s1.data k i }
    let s3 := s2._move_front i
    if (s3.data.length : Int) > s3.capacity then
      let r := s3._pop
      match r.1.bind (fun j => keyAt r.2 j) with
      | some lk => (none, { r.2 with data := aeraseB beq r.2.data lk })
      | none => (none, r.2)
    else (none, s3)

/-- Method `LRUCache.__len__`: the size of the `_data` index. -/
def LRU.size {K V : Type} (s : LRU K V) : Nat := s.data.length

/- Cache-level operation sequences are studied at `K = V = ℕ` with
Lean equality as the dictionary's key equality. -/

/-- Decidable equality on `ℕ` as a boolean, the dictionary equality
for `ℕ`-keyed caches. -/
def natBeq (a b : Nat) : Bool := a == b

/-- One public cache operation. -/
inductive Op where
  | get : Nat → Op
  | put : Nat → Nat → Op
deriving DecidableEq, Repr

/-- Apply one operation to an `ℕ`-keyed cache (the `get` default is
`None`, as in the source). -/
def step (s : LRU Nat Nat) : Op → LRU Nat Nat
  | Op.get k => (LRU.get natBeq s k none).2
  | Op.put k v => (LRU.put natBeq s k v).2

/-- Run a sequence of operations on a freshly constructed cache. -/
def run (cap : Int) (ops : List Op) : LRU Nat Nat :=
  ops.foldl step (LRU.init Nat Nat cap)

/-- Index lookup observable: the arena id under key `k`, if present. -/
def dataKey (s : LRU Nat Nat) (k : Nat) : Option Nat :=
  agetB natBeq s.data k

/-- A cache state together with access bookkeeping: `time` counts the
operations performed, and `acc` records, for every key, the index of
the last operation that accessed it, an access being a `put` of that
key or a `get` of it that hit. -/
structure TState where
  st : LRU Nat Nat
  time : Nat
  acc : List (Nat × Nat)
deriving DecidableEq, Repr

/-- One operation with access bookkeeping; the cache component evolves
exactly as under `step`. -/
def tstep (ts : TState) : Op → TState
  | Op.put k v => ⟨(LRU.put natBeq ts.st k v).2, ts.time + 1, asetB natBeq ts.acc k ts.time⟩
  | Op.get k =>
    match agetB natBeq ts.st.data k with
    | some _ => ⟨(LRU.get natBeq ts.st k none).2, ts.time + 1, asetB natBeq ts.acc k ts.time⟩
    | none => ⟨(LRU.get natBeq ts.st k none).2, ts.time + 1, ts.acc⟩

/-- Run a sequence of operations with access bookkeeping. -/
def runT (cap : Int) (ops : List Op) : TState :=
  ops.foldl tstep ⟨LRU.init Nat Nat cap, 0, []⟩

/-- The index of the last access of key `k` during `ops` (counting a
`put` of `k`, or a `get` of `k` that hit, as an access of `k`). -/
def lastAccess (cap : Int) (ops : List Op) (k : Nat) : Option Nat :=
  agetB natBeq (runT cap ops).acc k

/-- Keys of an association list are pairwise distinct. -/
def keysND {K α : Type} (l : List (K × α)) : Prop :=
  (l.map Prod.fst).Nodup

/- The chain predicate: `segB s p l e` states that starting at node
`p`, following `next` pointers visits exactly the ids in `l` and then
reaches `e`, with all the matching `prev` back-pointers in place.  The
list hanging between the sentinels is `segB s tailId l headId`. -/

/-- Chain of forward and backward links from `p` through `l` to `e`. -/
def segB {K V : Type} (s : LRU K V) : Nat → List Nat → Nat → Bool
  | p, [], e => nxt s p == some e && prv s e == some p
  | p, i :: l, e => nxt s p == some i && prv s i == some p && segB s i l e

/-- Last element of `p :: l`. -/
def lastD (p : Nat) : List Nat → Nat
  | [] => p
  | x :: xs => lastD x xs

/- The structural invariant tying a cache state to its abstract entry
list `e` (id, key, value), ordered least- to most-recently-used. -/

structure SInv (s : LRU Nat Nat) (e : List (Nat × Nat × Nat)) : Prop where
  chain : segB s tailId (e.map fun p => p.1) headId = true
  nodes_ok : ∀ p ∈ e, keyAt s p.1 = some p.2.1 ∧ valAt s p.1 = some p.2.2
  ids_nd : (e.map fun p => p.1).Nodup
  ids_lb : ∀ p ∈ e, 2 ≤ p.1
  ids_ub : ∀ p ∈ e, p.1 < s.nextId
  arena_ub : ∀ q ∈ s.nodes, q.1 < s.nextId
  nid_lb : 2 ≤ s.nextId
  keys_nd : (e.map fun p => p.2.1).Nodup
  data_pm : s.data.Perm (e.map fun p => (p.2.1, p.1))

/-- The state after the three insertion statements and the
`_move_front` call of `put`'s fresh-key branch. -/
@[reducible] def putFresh3 {K V : Type} (beq : K → K → Bool) (s : LRU K V) (k : K) (v : V) :
    LRU K V :=
  ({ s with nodes := asetN s.nodes s.nextId ⟨some k, some v, none, none⟩,
            data := asetB beq s.data k s.nextId,
            nextId := s.nextId + 1 } : LRU K V)._move_front s.nextId

/- The recency invariant: the keys of the entry list carry strictly
increasing last-access indices, every live key has a recorded access,
and all recorded accesses lie in the past. -/

/-- Recorded last access of a key (`0` when never accessed). -/
def accV (acc : List (Nat × Nat)) (k : Nat) : Nat :=
  (agetB natBeq acc k).getD 0

structure RInv (acc : List (Nat × Nat)) (time : Nat) (ks : List Nat) : Prop where
  mono : ks.Pairwise (fun a b => accV acc a < accV acc b)
  live_some : ∀ k ∈ ks, (agetB natBeq acc k).isSome = true
  time_ub : ∀ q ∈ acc, q.2 < time

/- Master invariant and its preservation along runs. -/

def MInv (ts : TState) (e : List (Nat × Nat × Nat)) : Prop :=
  SInv ts.st e ∧ RInv ts.acc ts.time (e.map fun p => p.2.1) ∧
    (e.length : Int) ≤ max ts.st.capacity 0

/-! ## Python values and `_normalize_key`

The decorator layer hashes call arguments.  We model the Python values that can
appear as arguments with a small inductive type: integers, floats (modelled as
exact rationals; NaN and infinities are out of scope) and strings.  Python `==`
identifies numerically equal `int`s and `float`s across types, which is exactly
what the `typed=True` mode of the decorator exists to distinguish. -/

inductive PyType where
  | intT : PyType
  | floatT : PyType
  | strT : PyType
deriving DecidableEq, Repr

inductive PyVal where
  | int : Int → PyVal
  | float : Rat → PyVal
  | str : String → PyVal
deriving DecidableEq, Repr

/-- Python `type(x)` restricted to the modelled values. -/
def PyVal.typeOf : PyVal → PyType
  | .int _ => .intT
  | .float _ => .floatT
  | .str _ => .strT

/-- Python `==` on modelled values: numbers compare by numeric value across
`int`/`float`; strings compare by content; values of unrelated types differ. -/
def pyValEq : PyVal → PyVal → Bool
  | .int a, .int b => decide (a = b)
  | .int a, .float b => decide ((a : Rat) = b)
  | .float a, .int b => decide (a = (b : Rat))
  | .float a, .float b => decide (a = b)
  | .str a, .str b => decide (a = b)
  | _, _ => false

/-- Python `==` on tuples of values (elementwise, same length). -/
def pyValListEq : List PyVal → List PyVal → Bool
  | [], [] => true
  | a :: as, b :: bs => pyValEq a b && pyValListEq as bs
  | _, _ => false

/-- Python `==` on tuples of `(name, value)` items. -/
def pyItemsEq : List (String × PyVal) → List (String × PyVal) → Bool
  | [], [] => true
  | (n, a) :: xs, (m, b) :: ys => (decide (n = m) && pyValEq a b) && pyItemsEq xs ys
  | _, _ => false

/-- The cache key produced by `_normalize_key`: `(args, items)` untyped, or
`(args, items, arg types, item value types)` when `typed` is set. -/
inductive PyKey where
  | plain : List PyVal → List (String × PyVal) → PyKey
  | typed : List PyVal → List (String × PyVal) → List PyType → List PyType → PyKey
deriving DecidableEq, Repr

/-- Python `==` on normalized keys (tuple equality; the two tuple shapes have
different lengths, hence never compare equal). -/
def pyKeyEq : PyKey → PyKey → Bool
  | .plain a i, .plain b j => pyValListEq a b && pyItemsEq i j
  | .typed a i ta ti, .typed b j tb tj =>
      ((pyValListEq a b && pyItemsEq i j) && decide (ta = tb)) && decide (ti = tj)
  | _, _ => false

/-- Insertion step of `sorted(kwargs.items())` (items are sorted by their
string name; Python sorts pairs lexicographically, and keyword names in a
single call are distinct, so the name alone decides the order). -/
def insertItem (p : String × PyVal) : List (String × PyVal) → List (String × PyVal)
  | [] => [p]
  | q :: l => if p.1 ≤ q.1 then p :: q :: l else q :: insertItem p l

/-- Python `sorted(kwargs.items())` as insertion sort. -/
def sortItems : List (String × PyVal) → List (String × PyVal)
  | [] => []
  | p :: l => insertItem p (sortItems l)

/-- Function `_normalize_key(args, kwargs, typed)`: sort the keyword items (empty tuple
when there are none), pair them with the positional arguments, and in typed
mode append the tuples of argument types and of keyword-value types. -/
def _normalize_key (args : List PyVal) (kwargs : List (String × PyVal)) (typed : Bool) :
    PyKey :=
  let items := if kwargs = [] then [] else sortItems kwargs
  if typed then
    PyKey.typed args items (args.map PyVal.typeOf) (items.map fun p => p.2.typeOf)
  else
    PyKey.plain args items

/-- Ordering of keyword items by name, the order `sorted` establishes. -/
def nmLe (p q : String × PyVal) : Prop := p.1 ≤ q.1

/-! ## The memoizing decorator (`lru_cache_impl` / `wrapper` / `cache_info`)

The decorator closes over one `LRUCache` plus the `hits`/`misses` counters.  We
carry that closure state in a record; `fcalls` additionally instruments how many
times the underlying function was invoked (it is not observable in the source,
but claims about caching are claims about this count).  The wrapped function may
raise, which we model as `Except`; its return value is an `Option ν` so that
returning `None` is representable, cached values having type `Option ν` in the
store. -/

structure CacheInfo where
  hits : Nat
  misses : Nat
  max_size : Int
  currsize : Nat
deriving DecidableEq, Repr

structure WState (ν : Type) where
  cache : LRU PyKey (Option ν)
  hits : Nat
  misses : Nat
  fcalls : Nat
deriving DecidableEq

/-- The decorator state right after `decorator(func)` ran: a fresh cache of the
given capacity and zeroed counters. -/
def initW (ν : Type) (max_size : Int) : WState ν :=
  ⟨LRU.init PyKey (Option ν) max_size, 0, 0, 0⟩

/-- Factory `lru_cache_impl(max_size)`: validates `max_size` (raising `ValueError`
exactly when it is not positive) and otherwise yields the decorator state.
(`typed` only affects `_normalize_key` at call time, so it is not part of the
state.) -/
def lru_cache_impl (ν : Type) (max_size : Int) : Except String (WState ν) :=
  if max_size ≤ 0 then Except.error "max_size must be > 0"
  else Except.ok (initW ν max_size)

/-- One call of the wrapped function: normalize the key, probe the cache with
`get` (default `None`); a non-`None` cached value is a hit and is returned;
otherwise count a miss, invoke `func` (propagating an exception without
touching the cache further), `put` the result and return it. -/
def wrapper {ν ε : Type} (func : List PyVal → List (String × PyVal) → Except ε (Option ν))
    (typed : Bool) (st : WState ν) (args : List PyVal) (kwargs : List (String × PyVal)) :
    Except ε (Option ν) × WState ν :=
  let key := _normalize_key args kwargs typed
  let r := LRU.get pyKeyEq st.cache key none
  match r.1 with
  | some (some v) => (Except.ok (some v), { st with cache := r.2, hits := st.hits + 1 })
  | _ =>
    let st1 : WState ν :=
      { st with cache := r.2, misses := st.misses + 1, fcalls := st.fcalls + 1 }
    match func args kwargs with
    | Except.error e => (Except.error e, st1)
    | Except.ok value =>
      let r2 := LRU.put pyKeyEq st1.cache key value
      (Except.ok value, { st1 with cache := r2.2 })

/-- A sequence of calls through the wrapper, keeping only the state. -/
def runW {ν ε : Type} (func : List PyVal → List (String × PyVal) → Except ε (Option ν))
    (typed : Bool) (calls : List (List PyVal × List (String × PyVal))) (st0 : WState ν) :
    WState ν :=
  calls.foldl (fun st c => (wrapper func typed st c.1 c.2).2) st0

/-- Closure `cache_info()`: the counters, the configured bound and the current size. -/
def cache_info {ν : Type} (max_size : Int) (st : WState ν) : CacheInfo :=
  ⟨st.hits, st.misses, max_size, st.cache.data.length⟩

/-- Every index entry whose key equals `κ` (under Python `==`) stores the
value `None`, and all entry ids are below the id counter. -/
def KNoneC {ν : Type} (κ : PyKey) (c : LRU PyKey (Option ν)) : Prop :=
  ∀ p ∈ c.data, (pyKeyEq p.1 κ = true → valAt c p.2 = some none) ∧ p.2 < c.nextId

/-! ## Verified properties -/

/- Association-list lemmas. -/

theorem agetN_asetN_self {α : Type} (l : List (Nat × α)) (i : Nat) (a : α) :
    agetN (asetN l i a) i = some a := by
  induction l with
  | nil => simp [agetN, asetN]
  | cons q l ih =>
    obtain ⟨j, b⟩ := q
    by_cases h : j = i
    · subst h; simp [agetN, asetN]
    · simp [agetN, asetN, h, ih]

theorem agetN_asetN_ne {α : Type} (l : List (Nat × α)) {i j : Nat} (a : α) (h : j ≠ i) :
    agetN (asetN l i a) j = agetN l j := by
  induction l with
  | nil => simp [agetN, asetN, Ne.symm h]
  | cons q l ih =>
    obtain ⟨j', b⟩ := q
    by_cases h' : j' = i
    · subst h'; simp [agetN, asetN, h, Ne.symm h]
    · simp [agetN, asetN, h']
      by_cases h'' : j' = j <;> simp [h'', ih]

theorem asetN_of_agetN {α : Type} {l : List (Nat × α)} {i : Nat} {a : α}
    (h : agetN l i = some a) : asetN l i a = l := by
  induction l with
  | nil => simp [agetN] at h
  | cons q l ih =>
    obtain ⟨j, b⟩ := q
    by_cases h' : j = i
    · subst h'
      simp [agetN] at h
      simp [asetN, h]
    · simp [agetN, h'] at h
      simp [asetN, h', ih h]

theorem agetN_mem {α : Type} {l : List (Nat × α)} {i : Nat} {a : α}
    (h : agetN l i = some a) : (i, a) ∈ l := by
  induction l with
  | nil => simp [agetN] at h
  | cons q l ih =>
    obtain ⟨j, b⟩ := q
    by_cases h' : j = i
    · subst h'
      simp [agetN] at h
      simp [h]
    · simp [agetN, h'] at h
      simp [ih h]

theorem mem_asetN {α : Type} {l : List (Nat × α)} {i : Nat} {a : α} {q : Nat × α}
    (h : q ∈ asetN l i a) : q.1 = i ∨ q ∈ l := by
  induction l with
  | nil => simp [asetN] at h; simp [h]
  | cons p l ih =>
    obtain ⟨j, b⟩ := p
    by_cases h' : j = i
    · subst h'
      simp [asetN] at h
      rcases h with h | h
      · subst h; simp
      · simp [h]
    · simp [asetN, h'] at h
      rcases h with h | h
      · subst h; simp
      · rcases ih h with h2 | h2
        · simp [h2]
        · simp [h2]

theorem asetB_of_agetB_none {K α : Type} (beq : K → K → Bool) {l : List (K × α)} {k : K}
    (a : α) (h : agetB beq l k = none) : asetB beq l k a = l ++ [(k, a)] := by
  induction l with
  | nil => simp [asetB]
  | cons q l ih =>
    obtain ⟨k', b⟩ := q
    by_cases h' : beq k k' = true
    · simp [agetB, h'] at h
    · simp [agetB, h'] at h
      simp [asetB, h', ih h]

theorem aeraseB_sublist {K α : Type} (beq : K → K → Bool) (l : List (K × α)) (k : K) :
    (aeraseB beq l k).Sublist l := by
  induction l with
  | nil => simp [aeraseB]
  | cons q l ih =>
    obtain ⟨k', b⟩ := q
    by_cases h' : beq k k' = true
    · simp [aeraseB, h']
    · simp [aeraseB, h']
      exact ih

theorem natBeq_iff {a b : Nat} : natBeq a b = true ↔ a = b := by
  simp [natBeq]

theorem agetB_some_mem {α : Type} {l : List (Nat × α)} {k : Nat} {i : α}
    (h : agetB natBeq l k = some i) : (k, i) ∈ l := by
  induction l with
  | nil => simp [agetB] at h
  | cons q l ih =>
    obtain ⟨k', b⟩ := q
    by_cases h' : natBeq k k' = true
    · rw [natBeq_iff] at h'
      subst h'
      simp [agetB, natBeq] at h
      simp [h]
    · simp [agetB, h'] at h
      simp [ih h]

theorem agetB_of_mem {α : Type} {l : List (Nat × α)} {k : Nat} {i : α} :
    keysND l → (k, i) ∈ l → agetB natBeq l k = some i := by
  induction l with
  | nil => intro _ h; simp at h
  | cons q l ih =>
    intro hnd h
    obtain ⟨k', b⟩ := q
    simp [keysND] at hnd
    rcases List.mem_cons.mp h with h1 | h1
    · rw [Prod.mk.injEq] at h1
      obtain ⟨h2, h3⟩ := h1
      subst h2; subst h3
      simp [agetB, natBeq]
    · have hk : k ≠ k' := by
        rintro rfl
        exact hnd.1 i h1
      simp [agetB, natBeq, hk]
      exact ih hnd.2 h1

theorem agetB_none_iff {α : Type} {l : List (Nat × α)} {k : Nat} :
    agetB natBeq l k = none ↔ k ∉ l.map Prod.fst := by
  induction l with
  | nil => simp [agetB]
  | cons q l ih =>
    obtain ⟨k', b⟩ := q
    by_cases h' : k = k'
    · subst h'
      simp [agetB, natBeq]
    · simp [agetB, natBeq, h', ih]

theorem agetB_asetB_self {α : Type} (l : List (Nat × α)) (k : Nat) (v : α) :
    agetB natBeq (asetB natBeq l k v) k = some v := by
  induction l with
  | nil => simp [asetB, agetB, natBeq]
  | cons q l ih =>
    obtain ⟨k', b⟩ := q
    by_cases h' : k = k'
    · subst h'
      simp [asetB, agetB, natBeq]
    · simp [asetB, agetB, natBeq, h', ih]

theorem agetB_asetB_ne {α : Type} (l : List (Nat × α)) {k k' : Nat} (v : α) (h : k' ≠ k) :
    agetB natBeq (asetB natBeq l k v) k' = agetB natBeq l k' := by
  induction l with
  | nil => simp [asetB, agetB, natBeq, h]
  | cons q l ih =>
    obtain ⟨k'', b⟩ := q
    by_cases h1 : k = k''
    · subst h1
      simp [asetB, agetB, natBeq, h]
    · by_cases h2 : k' = k''
      · subst h2
        simp [asetB, agetB, natBeq, h1, Ne.symm h1]
      · simp [asetB, agetB, natBeq, h1, h2, ih]

theorem mem_aeraseB {α : Type} {l : List (Nat × α)} {k : Nat} (x : Nat × α) :
    keysND l → (x ∈ aeraseB natBeq l k ↔ x ∈ l ∧ x.1 ≠ k) := by
  obtain ⟨x1, x2⟩ := x
  induction l with
  | nil => intro _; simp [aeraseB]
  | cons q l ih =>
    intro hnd
    obtain ⟨k', b⟩ := q
    simp [keysND] at hnd
    by_cases h' : k = k'
    · subst h'
      simp [aeraseB, natBeq]
      constructor
      · intro hx
        refine ⟨Or.inr hx, ?_⟩
        rintro rfl
        exact hnd.1 x2 hx
      · rintro ⟨hx | hx, hne⟩
        · exact absurd hx.1 hne
        · exact hx
    · simp [aeraseB, natBeq, h', ih hnd.2]
      constructor
      · rintro (hx | ⟨hx, hne⟩)
        · refine ⟨Or.inl hx, ?_⟩
          rw [hx.1]
          exact Ne.symm h'
        · exact ⟨Or.inr hx, hne⟩
      · rintro ⟨hx | hx, hne⟩
        · exact Or.inl hx
        · exact Or.inr ⟨hx, hne⟩

theorem keysND_of_perm {α : Type} {l m : List (Nat × α)} (h : l.Perm m) (hm : keysND m) :
    keysND l := by
  exact ((h.map Prod.fst).nodup_iff).2 hm

theorem entriesND_of_keysND {K α : Type} {l : List (K × α)} (h : keysND l) : l.Nodup :=
  List.Nodup.of_map Prod.fst h

theorem aeraseB_perm {α : Type} {l m : List (Nat × α)} (h : l.Perm m) (hm : keysND m)
    (k : Nat) : (aeraseB natBeq l k).Perm (aeraseB natBeq m k) := by
  have hl : keysND l := keysND_of_perm h hm
  have nd1 : (aeraseB natBeq l k).Nodup :=
    (aeraseB_sublist natBeq l k).nodup (entriesND_of_keysND hl)
  have nd2 : (aeraseB natBeq m k).Nodup :=
    (aeraseB_sublist natBeq m k).nodup (entriesND_of_keysND hm)
  rw [List.perm_ext_iff_of_nodup nd1 nd2]
  intro x
  rw [mem_aeraseB x hl, mem_aeraseB x hm, h.mem_iff]

/- Point-update lemmas for the two field setters. -/

theorem nodeAt_setNxt {K V : Type} (s : LRU K V) (i : Nat) (o : Option Nat) (j : Nat) :
    nodeAt (setNxt s i o) j =
      if j = i then (nodeAt s i).map (fun n => { n with next := o }) else nodeAt s j := by
  unfold setNxt nodeAt
  rcases h : agetN s.nodes i with _ | n
  · by_cases hj : j = i
    · subst hj; simp [h]
    · simp [hj]
  · by_cases hj : j = i
    · subst hj; simp [h, agetN_asetN_self]
    · simp [hj, agetN_asetN_ne _ _ hj]

theorem nodeAt_setPrv {K V : Type} (s : LRU K V) (i : Nat) (o : Option Nat) (j : Nat) :
    nodeAt (setPrv s i o) j =
      if j = i then (nodeAt s i).map (fun n => { n with prev := o }) else nodeAt s j := by
  unfold setPrv nodeAt
  rcases h : agetN s.nodes i with _ | n
  · by_cases hj : j = i
    · subst hj; simp [h]
    · simp [hj]
  · by_cases hj : j = i
    · subst hj; simp [h, agetN_asetN_self]
    · simp [hj, agetN_asetN_ne _ _ hj]

theorem setNxt_data {K V : Type} (s : LRU K V) (i : Nat) (o : Option Nat) :
    (setNxt s i o).data = s.data := by
  unfold setNxt; rcases agetN s.nodes i <;> rfl

theorem setPrv_data {K V : Type} (s : LRU K V) (i : Nat) (o : Option Nat) :
    (setPrv s i o).data = s.data := by
  unfold setPrv; rcases agetN s.nodes i <;> rfl

theorem setNxt_capacity {K V : Type} (s : LRU K V) (i : Nat) (o : Option Nat) :
    (setNxt s i o).capacity = s.capacity := by
  unfold setNxt; rcases agetN s.nodes i <;> rfl

theorem setPrv_capacity {K V : Type} (s : LRU K V) (i : Nat) (o : Option Nat) :
    (setPrv s i o).capacity = s.capacity := by
  unfold setPrv; rcases agetN s.nodes i <;> rfl

theorem setNxt_nextId {K V : Type} (s : LRU K V) (i : Nat) (o : Option Nat) :
    (setNxt s i o).nextId = s.nextId := by
  unfold setNxt; rcases agetN s.nodes i <;> rfl

theorem setPrv_nextId {K V : Type} (s : LRU K V) (i : Nat) (o : Option Nat) :
    (setPrv s i o).nextId = s.nextId := by
  unfold setPrv; rcases agetN s.nodes i <;> rfl

theorem keyAt_setNxt {K V : Type} (s : LRU K V) (i : Nat) (o : Option Nat) (j : Nat) :
    keyAt (setNxt s i o) j = keyAt s j := by
  unfold keyAt
  rw [nodeAt_setNxt]
  by_cases hj : j = i
  · subst hj
    simp only [if_pos rfl]
    cases nodeAt s j <;> rfl
  · simp [hj]

theorem keyAt_setPrv {K V : Type} (s : LRU K V) (i : Nat) (o : Option Nat) (j : Nat) :
    keyAt (setPrv s i o) j = keyAt s j := by
  unfold keyAt
  rw [nodeAt_setPrv]
  by_cases hj : j = i
  · subst hj
    simp only [if_pos rfl]
    cases nodeAt s j <;> rfl
  · simp [hj]

theorem valAt_setNxt {K V : Type} (s : LRU K V) (i : Nat) (o : Option Nat) (j : Nat) :
    valAt (setNxt s i o) j = valAt s j := by
  unfold valAt
  rw [nodeAt_setNxt]
  by_cases hj : j = i
  · subst hj
    simp only [if_pos rfl]
    cases nodeAt s j <;> rfl
  · simp [hj]

theorem valAt_setPrv {K V : Type} (s : LRU K V) (i : Nat) (o : Option Nat) (j : Nat) :
    valAt (setPrv s i o) j = valAt s j := by
  unfold valAt
  rw [nodeAt_setPrv]
  by_cases hj : j = i
  · subst hj
    simp only [if_pos rfl]
    cases nodeAt s j <;> rfl
  · simp [hj]

theorem prv_setNxt {K V : Type} (s : LRU K V) (i : Nat) (o : Option Nat) (j : Nat) :
    prv (setNxt s i o) j = prv s j := by
  unfold prv
  rw [nodeAt_setNxt]
  by_cases hj : j = i
  · subst hj
    simp only [if_pos rfl]
    cases nodeAt s j <;> rfl
  · simp [hj]

theorem nxt_setPrv {K V : Type} (s : LRU K V) (i : Nat) (o : Option Nat) (j : Nat) :
    nxt (setPrv s i o) j = nxt s j := by
  unfold nxt
  rw [nodeAt_setPrv]
  by_cases hj : j = i
  · subst hj
    simp only [if_pos rfl]
    cases nodeAt s j <;> rfl
  · simp [hj]

theorem nxt_setNxt_ne {K V : Type} (s : LRU K V) {i : Nat} (o : Option Nat) {j : Nat}
    (h : j ≠ i) : nxt (setNxt s i o) j = nxt s j := by
  unfold nxt
  rw [nodeAt_setNxt]
  simp [h]

theorem prv_setPrv_ne {K V : Type} (s : LRU K V) {i : Nat} (o : Option Nat) {j : Nat}
    (h : j ≠ i) : prv (setPrv s i o) j = prv s j := by
  unfold prv
  rw [nodeAt_setPrv]
  simp [h]

theorem nxt_setNxt_self {K V : Type} (s : LRU K V) {i : Nat} (o : Option Nat)
    (h : (nodeAt s i).isSome = true) : nxt (setNxt s i o) i = o := by
  unfold nxt
  rw [nodeAt_setNxt]
  rcases hn : nodeAt s i with _ | n
  · rw [hn] at h; simp at h
  · simp

theorem prv_setPrv_self {K V : Type} (s : LRU K V) {i : Nat} (o : Option Nat)
    (h : (nodeAt s i).isSome = true) : prv (setPrv s i o) i = o := by
  unfold prv
  rw [nodeAt_setPrv]
  rcases hn : nodeAt s i with _ | n
  · rw [hn] at h; simp at h
  · simp

theorem isSome_setNxt {K V : Type} (s : LRU K V) (i : Nat) (o : Option Nat) (j : Nat) :
    (nodeAt (setNxt s i o) j).isSome = (nodeAt s j).isSome := by
  rw [nodeAt_setNxt]
  by_cases hj : j = i
  · subst hj
    simp only [if_pos rfl]
    cases nodeAt s j <;> rfl
  · simp [hj]

theorem isSome_setPrv {K V : Type} (s : LRU K V) (i : Nat) (o : Option Nat) (j : Nat) :
    (nodeAt (setPrv s i o) j).isSome = (nodeAt s j).isSome := by
  rw [nodeAt_setPrv]
  by_cases hj : j = i
  · subst hj
    simp only [if_pos rfl]
    cases nodeAt s j <;> rfl
  · simp [hj]

theorem mem_nodes_setNxt {K V : Type} {s : LRU K V} {i : Nat} {o : Option Nat}
    {q : Nat × Node K V} (h : q ∈ (setNxt s i o).nodes) : ∃ b, (q.1, b) ∈ s.nodes := by
  unfold setNxt at h
  rcases hn : agetN s.nodes i with _ | n
  · rw [hn] at h
    exact ⟨q.2, h⟩
  · rw [hn] at h
    simp only at h
    rcases mem_asetN h with h1 | h1
    · exact ⟨n, h1 ▸ agetN_mem hn⟩
    · exact ⟨q.2, h1⟩

theorem mem_nodes_setPrv {K V : Type} {s : LRU K V} {i : Nat} {o : Option Nat}
    {q : Nat × Node K V} (h : q ∈ (setPrv s i o).nodes) : ∃ b, (q.1, b) ∈ s.nodes := by
  unfold setPrv at h
  rcases hn : agetN s.nodes i with _ | n
  · rw [hn] at h
    exact ⟨q.2, h⟩
  · rw [hn] at h
    simp only at h
    rcases mem_asetN h with h1 | h1
    · exact ⟨n, h1 ▸ agetN_mem hn⟩
    · exact ⟨q.2, h1⟩

/- Preservation lemmas for `_remove`, `_move_front` and `_pop`:
none of them touch the index, the capacity, the id counter, or any
node's `key`/`val` fields, and they never create or drop arena ids. -/

theorem remove_data {K V : Type} (s : LRU K V) (i : Nat) :
    (s._remove i).data = s.data := by
  unfold LRU._remove
  rcases h : agetN s.nodes i with _ | n
  · rfl
  · rcases hp : n.prev with _ | p <;> rcases hq : n.next with _ | q <;>
      simp [hp, hq, setNxt_data, setPrv_data]

theorem remove_capacity {K V : Type} (s : LRU K V) (i : Nat) :
    (s._remove i).capacity = s.capacity := by
  unfold LRU._remove
  rcases h : agetN s.nodes i with _ | n
  · rfl
  · rcases hp : n.prev with _ | p <;> rcases hq : n.next with _ | q <;>
      simp [hp, hq, setNxt_capacity, setPrv_capacity]

theorem remove_nextId {K V : Type} (s : LRU K V) (i : Nat) :
    (s._remove i).nextId = s.nextId := by
  unfold LRU._remove
  rcases h : agetN s.nodes i with _ | n
  · rfl
  · rcases hp : n.prev with _ | p <;> rcases hq : n.next with _ | q <;>
      simp [hp, hq, setNxt_nextId, setPrv_nextId]

theorem remove_keyAt {K V : Type} (s : LRU K V) (i j : Nat) :
    keyAt (s._remove i) j = keyAt s j := by
  unfold LRU._remove
  rcases h : agetN s.nodes i with _ | n
  · rfl
  · rcases hp : n.prev with _ | p <;> rcases hq : n.next with _ | q <;>
      simp [hp, hq, keyAt_setNxt, keyAt_setPrv]

theorem remove_valAt {K V : Type} (s : LRU K V) (i j : Nat) :
    valAt (s._remove i) j = valAt s j := by
  unfold LRU._remove
  rcases h : agetN s.nodes i with _ | n
  · rfl
  · rcases hp : n.prev with _ | p <;> rcases hq : n.next with _ | q <;>
      simp [hp, hq, valAt_setNxt, valAt_setPrv]

theorem remove_isSome {K V : Type} (s : LRU K V) (i j : Nat) :
    (nodeAt (s._remove i) j).isSome = (nodeAt s j).isSome := by
  unfold LRU._remove
  rcases h : agetN s.nodes i with _ | n
  · rfl
  · rcases hp : n.prev with _ | p <;> rcases hq : n.next with _ | q <;>
      simp [hp, hq, isSome_setNxt, isSome_setPrv]

theorem mem_nodes_remove {K V : Type} {s : LRU K V} {i : Nat} {q : Nat × Node K V}
    (h : q ∈ (s._remove i).nodes) : ∃ b, (q.1, b) ∈ s.nodes := by
  unfold LRU._remove at h
  rcases hn : agetN s.nodes i with _ | n
  · rw [hn] at h
    exact ⟨q.2, h⟩
  · rw [hn] at h
    simp only at h
    rcases hp : n.prev with _ | p <;> rcases hq : n.next with _ | q' <;>
        rw [hp, hq] at h <;> simp only at h
    · exact ⟨q.2, h⟩
    · exact mem_nodes_setPrv h
    · exact mem_nodes_setNxt h
    · obtain ⟨b, hb⟩ := mem_nodes_setPrv h
      obtain ⟨b2, hb2⟩ := mem_nodes_setNxt hb
      exact ⟨b2, hb2⟩

theorem moveFront_data {K V : Type} (s : LRU K V) (i : Nat) :
    (s._move_front i).data = s.data := by
  unfold LRU._move_front
  rcases h : prv (s._remove i) headId with _ | ph
  · simp [h, remove_data]
  · simp [h, setNxt_data, setPrv_data, remove_data]

theorem moveFront_capacity {K V : Type} (s : LRU K V) (i : Nat) :
    (s._move_front i).capacity = s.capacity := by
  unfold LRU._move_front
  rcases h : prv (s._remove i) headId with _ | ph
  · simp [h, remove_capacity]
  · simp [h, setNxt_capacity, setPrv_capacity, remove_capacity]

theorem moveFront_nextId {K V : Type} (s : LRU K V) (i : Nat) :
    (s._move_front i).nextId = s.nextId := by
  unfold LRU._move_front
  rcases h : prv (s._remove i) headId with _ | ph
  · simp [h, remove_nextId]
  · simp [h, setNxt_nextId, setPrv_nextId, remove_nextId]

theorem moveFront_keyAt {K V : Type} (s : LRU K V) (i j : Nat) :
    keyAt (s._move_front i) j = keyAt s j := by
  unfold LRU._move_front
  rcases h : prv (s._remove i) headId with _ | ph
  · simp [h, remove_keyAt]
  · simp [h, keyAt_setNxt, keyAt_setPrv, remove_keyAt]

theorem moveFront_valAt {K V : Type} (s : LRU K V) (i j : Nat) :
    valAt (s._move_front i) j = valAt s j := by
  unfold LRU._move_front
  rcases h : prv (s._remove i) headId with _ | ph
  · simp [h, remove_valAt]
  · simp [h, valAt_setNxt, valAt_setPrv, remove_valAt]

theorem moveFront_isSome {K V : Type} (s : LRU K V) (i j : Nat) :
    (nodeAt (s._move_front i) j).isSome = (nodeAt s j).isSome := by
  unfold LRU._move_front
  rcases h : prv (s._remove i) headId with _ | ph
  · simp [h, remove_isSome]
  · simp [h, isSome_setNxt, isSome_setPrv, remove_isSome]

theorem mem_nodes_moveFront {K V : Type} {s : LRU K V} {i : Nat} {q : Nat × Node K V}
    (h : q ∈ (s._move_front i).nodes) : ∃ b, (q.1, b) ∈ s.nodes := by
  rcases hp : prv (s._remove i) headId with _ | ph
  · simp only [LRU._move_front, hp] at h
    exact mem_nodes_remove h
  · simp only [LRU._move_front, hp] at h
    obtain ⟨b1, hb1⟩ := mem_nodes_setPrv h
    obtain ⟨b2, hb2⟩ := mem_nodes_setNxt hb1
    obtain ⟨b3, hb3⟩ := mem_nodes_setPrv hb2
    obtain ⟨b4, hb4⟩ := mem_nodes_setNxt hb3
    obtain ⟨b5, hb5⟩ := mem_nodes_remove hb4
    exact ⟨b5, hb5⟩

theorem lastD_concat (p : Nat) (l : List Nat) (a : Nat) : lastD p (l ++ [a]) = a := by
  induction l generalizing p with
  | nil => rfl
  | cons x xs ih => exact ih x

theorem lastD_mem (p : Nat) (l : List Nat) : lastD p l ∈ p :: l := by
  induction l generalizing p with
  | nil => simp [lastD]
  | cons x xs ih =>
    rcases List.mem_cons.mp (ih x) with h | h
    · simp [lastD, h]
    · simp [lastD]
      right; right
      exact h

theorem segB_append {K V : Type} (s : LRU K V) (xs : List Nat) (i : Nat) (ys : List Nat)
    (p e : Nat) : segB s p (xs ++ i :: ys) e = true ↔
      (segB s p xs i = true ∧ segB s i ys e = true) := by
  induction xs generalizing p with
  | nil => simp [segB, and_assoc]
  | cons x xs ih => simp [segB, ih, and_assoc]

theorem segB_last {K V : Type} {s : LRU K V} : ∀ (l : List Nat) (p e : Nat),
    segB s p l e = true → prv s e = some (lastD p l) := by
  intro l
  induction l with
  | nil =>
    intro p e h
    simp [segB] at h
    exact h.2
  | cons x xs ih =>
    intro p e h
    simp [segB] at h
    exact ih x e h.2

theorem segB_head {K V : Type} {s : LRU K V} {l : List Nat} {p e : Nat}
    (h : segB s p l e = true) : nxt s p = some (l.headD e) := by
  cases l with
  | nil => simp [segB] at h; exact h.1
  | cons x xs => simp [segB] at h; exact h.1.1

theorem isSome_of_nxt {K V : Type} {s : LRU K V} {p x : Nat} (h : nxt s p = some x) :
    (nodeAt s p).isSome = true := by
  unfold nxt at h
  rcases hn : nodeAt s p with _ | n
  · rw [hn] at h; simp at h
  · simp

theorem isSome_of_prv {K V : Type} {s : LRU K V} {p x : Nat} (h : prv s p = some x) :
    (nodeAt s p).isSome = true := by
  unfold prv at h
  rcases hn : nodeAt s p with _ | n
  · rw [hn] at h; simp at h
  · simp

theorem segB_isSome_mem {K V : Type} {s : LRU K V} : ∀ {l : List Nat} {p e : Nat},
    segB s p l e = true → ∀ i ∈ l, (nodeAt s i).isSome = true := by
  intro l
  induction l with
  | nil => intro p e _ i hi; simp at hi
  | cons x xs ih =>
    intro p e h i hi
    simp [segB] at h
    rcases List.mem_cons.mp hi with h1 | h1
    · subst h1
      exact isSome_of_prv h.1.2
    · exact ih h.2 i h1

theorem segB_isSome_left {K V : Type} {s : LRU K V} {l : List Nat} {p e : Nat}
    (h : segB s p l e = true) : (nodeAt s p).isSome = true :=
  isSome_of_nxt (segB_head h)

theorem segB_isSome_right {K V : Type} {s : LRU K V} {l : List Nat} {p e : Nat}
    (h : segB s p l e = true) : (nodeAt s e).isSome = true :=
  isSome_of_prv (segB_last l p e h)

theorem segB_congr {K V : Type} {s s' : LRU K V} : ∀ {l : List Nat} {p e : Nat},
    (∀ j ∈ p :: l, nxt s' j = nxt s j) → (∀ j ∈ l ++ [e], prv s' j = prv s j) →
    segB s' p l e = segB s p l e := by
  intro l
  induction l with
  | nil =>
    intro p e hn hp
    simp only [segB]
    rw [hn p (by simp), hp e (by simp)]
  | cons x xs ih =>
    intro p e hn hp
    simp only [segB]
    rw [hn p (List.mem_cons_self p _), hp x (by simp)]
    have hn' : ∀ j ∈ x :: xs, nxt s' j = nxt s j := by
      intro j hj
      exact hn j (List.mem_cons_of_mem p hj)
    have hp' : ∀ j ∈ xs ++ [e], prv s' j = prv s j := by
      intro j hj
      apply hp
      rcases List.mem_append.mp hj with h1 | h1
      · exact List.mem_append.mpr (Or.inl (List.mem_cons_of_mem x h1))
      · exact List.mem_append.mpr (Or.inr h1)
    rw [ih hn' hp']

/- Chain surgery: removing an element from the chain, and relinking a
node right before the `_head` sentinel. -/

theorem remove_eq {K V : Type} {s : LRU K V} {i : Nat} {n : Node K V} {p q : Nat}
    (hn : nodeAt s i = some n) (hp : n.prev = some p) (hq : n.next = some q) :
    s._remove i = setPrv (setNxt s p (some q)) q (some p) := by
  unfold LRU._remove
  unfold nodeAt at hn
  simp [hn, hp, hq]

theorem headD_mem (l : List Nat) (e : Nat) : l.headD e ∈ l ++ [e] := by
  cases l <;> simp

theorem remove_chain {K V : Type} {s : LRU K V} {xs ys : List Nat} {i : Nat}
    (h : segB s tailId (xs ++ i :: ys) headId = true)
    (hnd : (xs ++ i :: ys).Nodup)
    (hlow : ∀ j ∈ xs ++ i :: ys, 2 ≤ j) :
    segB (s._remove i) tailId (xs ++ ys) headId = true := by
  obtain ⟨hL, hR⟩ := (segB_append s xs i ys tailId headId).mp h
  have hpi : prv s i = some (lastD tailId xs) := segB_last xs tailId i hL
  have hqi : nxt s i = some (ys.headD headId) := segB_head hR
  have hex : (nodeAt s i).isSome = true := isSome_of_prv hpi
  obtain ⟨n, hni⟩ := Option.isSome_iff_exists.mp hex
  have hp' : n.prev = some (lastD tailId xs) := by
    unfold prv at hpi
    rw [hni] at hpi
    simpa using hpi
  have hq' : n.next = some (ys.headD headId) := by
    unfold nxt at hqi
    rw [hni] at hqi
    simpa using hqi
  rw [List.nodup_append] at hnd
  obtain ⟨hndx, hndiy, hdisj⟩ := hnd
  have hndy : ys.Nodup := (List.nodup_cons.mp hndiy).2
  have hiy : i ∉ ys := (List.nodup_cons.mp hndiy).1
  have hlowi : 2 ≤ i := hlow i (by simp)
  have hlowx : ∀ j ∈ xs, 2 ≤ j := fun j hj => hlow j (by simp [hj])
  have hlowy : ∀ j ∈ ys, 2 ≤ j := fun j hj => hlow j (by simp [hj])
  have hpmem := lastD_mem tailId xs
  have hqmem := headD_mem ys headId
  have hqy : ys.headD headId ∈ ys ∨ ys.headD headId = headId := by
    rcases List.mem_append.mp hqmem with h1 | h1
    · exact Or.inl h1
    · right; simpa using h1
  have hrm := remove_eq hni hp' hq'
  rw [hrm]
  have hex_p : (nodeAt s (lastD tailId xs)).isSome = true := by
    rcases List.mem_cons.mp hpmem with h1 | h1
    · rw [h1]
      exact segB_isSome_left hL
    · exact segB_isSome_mem h (lastD tailId xs) (List.mem_append.mpr (Or.inl h1))
  have hex_q : (nodeAt s (ys.headD headId)).isSome = true := by
    rcases hqy with h1 | h1
    · exact segB_isSome_mem h (ys.headD headId)
        (List.mem_append.mpr (Or.inr (List.mem_cons_of_mem i h1)))
    · rw [h1]
      exact segB_isSome_right h
  have hnxt_self : nxt (setPrv (setNxt s (lastD tailId xs) (some (ys.headD headId))) (ys.headD headId) (some (lastD tailId xs))) (lastD tailId xs) = some (ys.headD headId) := by
    rw [nxt_setPrv, nxt_setNxt_self _ _ hex_p]
  have hprv_self : prv (setPrv (setNxt s (lastD tailId xs) (some (ys.headD headId))) (ys.headD headId) (some (lastD tailId xs))) (ys.headD headId) = some (lastD tailId xs) := by
    rw [prv_setPrv_self]
    rw [isSome_setNxt]
    exact hex_q
  have hnxt_other : ∀ j, j ≠ lastD tailId xs → nxt (setPrv (setNxt s (lastD tailId xs) (some (ys.headD headId))) (ys.headD headId) (some (lastD tailId xs))) j = nxt s j := by
    intro j hj
    rw [nxt_setPrv, nxt_setNxt_ne _ _ hj]
  have hprv_other : ∀ j, j ≠ ys.headD headId → prv (setPrv (setNxt s (lastD tailId xs) (some (ys.headD headId))) (ys.headD headId) (some (lastD tailId xs))) j = prv s j := by
    intro j hj
    rw [prv_setPrv_ne _ _ hj, prv_setNxt]
  -- head piece: the chain from the tail sentinel through `xs` now ends at
  -- the successor of the removed node
  have hhead : segB (setPrv (setNxt s (lastD tailId xs) (some (ys.headD headId))) (ys.headD headId) (some (lastD tailId xs))) tailId xs (ys.headD headId) = true := by
    rcases List.eq_nil_or_concat xs with hxs | ⟨xs0, x, hxs⟩
    · subst hxs
      simp only [segB]
      rw [Bool.and_eq_true, beq_iff_eq, beq_iff_eq]
      exact ⟨hnxt_self, hprv_self⟩
    · rw [List.concat_eq_append] at hxs
      subst hxs
      have hpx : lastD tailId (xs0 ++ [x]) = x := lastD_concat tailId xs0 x
      have hxmem : x ∈ xs0 ++ [x] := by simp
      have hxnot0 : x ∉ xs0 := by
        rw [List.nodup_append] at hndx
        intro hc
        exact hndx.2.2 hc (by simp)
      obtain ⟨hL1, hL2⟩ := (segB_append s xs0 x [] tailId i).mp hL
      rw [segB_append]
      constructor
      · -- untouched prefix
        have hcg : segB (setPrv (setNxt s (lastD tailId (xs0 ++ [x])) (some (ys.headD headId))) (ys.headD headId) (some (lastD tailId (xs0 ++ [x])))) tailId xs0 x = segB s tailId xs0 x := by
          apply segB_congr
          · intro j hj
            apply hnxt_other
            rw [hpx]
            rcases List.mem_cons.mp hj with h1 | h1
            · rw [h1]
              intro hc
              have := hlowx x hxmem
              rw [← hc] at this
              norm_num [tailId] at this
            · intro hc
              rw [hc] at h1
              exact hxnot0 h1
          · intro j hj
            apply hprv_other
            rcases List.mem_append.mp hj with h1 | h1
            · intro hc
              rcases hqy with h2 | h2
              · rw [hc] at h1
                exact hdisj (List.mem_append.mpr (Or.inl h1)) (List.mem_cons_of_mem i h2)
              · rw [h2] at hc
                have := hlowx j (by simp [h1])
                rw [hc] at this
                norm_num [headId] at this
            · simp at h1
              rw [h1]
              intro hc
              rcases hqy with h2 | h2
              · rw [← hc] at h2
                exact hdisj hxmem (List.mem_cons_of_mem i h2)
              · rw [h2] at hc
                have := hlowx x hxmem
                rw [hc] at this
                norm_num [headId] at this
        rw [hcg]
        exact hL1
      · -- the spliced link itself
        simp only [segB]
        rw [Bool.and_eq_true, beq_iff_eq, beq_iff_eq]
        rw [hpx] at hnxt_self hprv_self
        rw [hpx]
        exact ⟨hnxt_self, hprv_self⟩
  rcases hys : ys with _ | ⟨y, ys'⟩
  · subst hys
    simpa using hhead
  · subst hys
    have hqdef : (y :: ys').headD headId = y := rfl
    rw [segB_append]
    constructor
    · rw [hqdef] at hhead
      exact hhead
    · -- untouched suffix
      simp only [segB] at hR
      rw [Bool.and_eq_true, Bool.and_eq_true, beq_iff_eq, beq_iff_eq] at hR
      have hcg : segB (setPrv (setNxt s (lastD tailId xs) (some ((y :: ys').headD headId))) ((y :: ys').headD headId) (some (lastD tailId xs))) y ys' headId = segB s y ys' headId := by
        apply segB_congr
        · intro j hj
          apply hnxt_other
          intro hc
          rcases List.mem_cons.mp hpmem with h1 | h1
          · rw [h1] at hc
            have := hlowy j (by simpa using hj)
            rw [hc] at this
            norm_num [tailId] at this
          · rw [hc] at hj
            exact hdisj h1 (List.mem_cons_of_mem i hj)
        · intro j hj
          apply hprv_other
          rw [hqdef]
          intro hc
          rcases List.mem_append.mp hj with h1 | h1
          · rw [hc] at h1
            exact (List.nodup_cons.mp hndy).1 h1
          · simp at h1
            rw [h1] at hc
            have := hlowy y (by simp)
            rw [← hc] at this
            norm_num [headId] at this
      rw [hcg]
      exact hR.2

theorem relink_chain {K V : Type} {s : LRU K V} {l : List Nat} {i : Nat}
    (h : segB s tailId l headId = true)
    (hnd : l.Nodup) (hlow : ∀ j ∈ l, 2 ≤ j)
    (hi : i ∉ l) (hilow : 2 ≤ i)
    (hex_i : (nodeAt s i).isSome = true) :
    segB (setPrv (setNxt (setPrv (setNxt s (lastD tailId l) (some i)) i (some (lastD tailId l))) i (some headId)) headId (some i)) tailId (l ++ [i]) headId = true := by
  have hpmem := lastD_mem tailId l
  have hPi : lastD tailId l ≠ i := by
    rcases List.mem_cons.mp hpmem with h1 | h1
    · rw [h1]
      intro hc
      rw [← hc] at hilow
      norm_num [tailId] at hilow
    · intro hc
      rw [hc] at h1
      exact hi h1
  have hihead : i ≠ headId := by
    intro hc
    rw [hc] at hilow
    norm_num [headId] at hilow
  have hitail : i ≠ tailId := by
    intro hc
    rw [hc] at hilow
    norm_num [tailId] at hilow
  have hex_P : (nodeAt s (lastD tailId l)).isSome = true := by
    rcases List.mem_cons.mp hpmem with h1 | h1
    · rw [h1]
      exact segB_isSome_left h
    · exact segB_isSome_mem h _ h1
  have hex_h : (nodeAt s headId).isSome = true := segB_isSome_right h
  -- final pointer values in the relinked state
  have hnx_i : nxt (setPrv (setNxt (setPrv (setNxt s (lastD tailId l) (some i)) i (some (lastD tailId l))) i (some headId)) headId (some i)) i = some headId := by
    rw [nxt_setPrv, nxt_setNxt_self]
    rw [isSome_setPrv, isSome_setNxt]
    exact hex_i
  have hnx_P : nxt (setPrv (setNxt (setPrv (setNxt s (lastD tailId l) (some i)) i (some (lastD tailId l))) i (some headId)) headId (some i)) (lastD tailId l) = some i := by
    rw [nxt_setPrv, nxt_setNxt_ne _ _ hPi, nxt_setPrv, nxt_setNxt_self _ _ hex_P]
  have hnx_other : ∀ j, j ≠ i → j ≠ lastD tailId l → nxt (setPrv (setNxt (setPrv (setNxt s (lastD tailId l) (some i)) i (some (lastD tailId l))) i (some headId)) headId (some i)) j = nxt s j := by
    intro j hj1 hj2
    rw [nxt_setPrv, nxt_setNxt_ne _ _ hj1, nxt_setPrv, nxt_setNxt_ne _ _ hj2]
  have hpv_h : prv (setPrv (setNxt (setPrv (setNxt s (lastD tailId l) (some i)) i (some (lastD tailId l))) i (some headId)) headId (some i)) headId = some i := by
    rw [prv_setPrv_self]
    rw [isSome_setNxt, isSome_setPrv, isSome_setNxt]
    exact hex_h
  have hpv_i : prv (setPrv (setNxt (setPrv (setNxt s (lastD tailId l) (some i)) i (some (lastD tailId l))) i (some headId)) headId (some i)) i = some (lastD tailId l) := by
    rw [prv_setPrv_ne _ _ hihead, prv_setNxt, prv_setPrv_self]
    rw [isSome_setNxt]
    exact hex_i
  have hpv_other : ∀ j, j ≠ headId → j ≠ i → prv (setPrv (setNxt (setPrv (setNxt s (lastD tailId l) (some i)) i (some (lastD tailId l))) i (some headId)) headId (some i)) j = prv s j := by
    intro j hj1 hj2
    rw [prv_setPrv_ne _ _ hj1, prv_setNxt, prv_setPrv_ne _ _ hj2, prv_setNxt]
  rw [segB_append]
  constructor
  · -- chain up to the relinked node
    rcases List.eq_nil_or_concat l with hl | ⟨l0, x, hl⟩
    · subst hl
      simp only [segB]
      rw [Bool.and_eq_true, beq_iff_eq, beq_iff_eq]
      constructor
      · exact hnx_P
      · exact hpv_i
    · rw [List.concat_eq_append] at hl
      subst hl
      have hpx : lastD tailId (l0 ++ [x]) = x := lastD_concat tailId l0 x
      have hxmem : x ∈ l0 ++ [x] := by simp
      have hxnot0 : x ∉ l0 := by
        rw [List.nodup_append] at hnd
        intro hc
        exact hnd.2.2 hc (by simp)
      obtain ⟨hL1, hL2⟩ := (segB_append s l0 x [] tailId headId).mp h
      rw [segB_append]
      constructor
      · have hcg : segB (setPrv (setNxt (setPrv (setNxt s (lastD tailId (l0 ++ [x])) (some i)) i (some (lastD tailId (l0 ++ [x])))) i (some headId)) headId (some i)) tailId l0 x = segB s tailId l0 x := by
          apply segB_congr
          · intro j hj
            apply hnx_other
            · intro hc
              rcases List.mem_cons.mp hj with h1 | h1
              · rw [h1] at hc
                rw [← hc] at hilow
                norm_num [tailId] at hilow
              · rw [hc] at h1
                exact hi (by simp [h1])
            · rw [hpx]
              intro hc
              rcases List.mem_cons.mp hj with h1 | h1
              · rw [h1] at hc
                have := hlow x (by simp)
                rw [← hc] at this
                norm_num [tailId] at this
              · rw [hc] at h1
                exact hxnot0 h1
          · intro j hj
            apply hpv_other
            · intro hc
              rcases List.mem_append.mp hj with h1 | h1
              · have := hlow j (by simp [h1])
                rw [hc] at this
                norm_num [headId] at this
              · simp at h1
                rw [h1] at hc
                have := hlow x (by simp)
                rw [hc] at this
                norm_num [headId] at this
            · intro hc
              rcases List.mem_append.mp hj with h1 | h1
              · rw [hc] at h1
                exact hi (by simp [h1])
              · simp at h1
                rw [h1] at hc
                subst hc
                exact hi hxmem
        rw [hcg]
        exact hL1
      · simp only [segB]
        rw [Bool.and_eq_true, beq_iff_eq, beq_iff_eq]
        rw [hpx] at hnx_P hpv_i
        rw [hpx]
        exact ⟨hnx_P, hpv_i⟩
  · -- the relinked node sits right before the head sentinel
    simp only [segB]
    rw [Bool.and_eq_true, beq_iff_eq, beq_iff_eq]
    exact ⟨hnx_i, hpv_h⟩

theorem moveFront_eq_of_prv {K V : Type} {s : LRU K V} {i ph : Nat}
    (h : prv (s._remove i) headId = some ph) :
    s._move_front i = setPrv (setNxt (setPrv (setNxt (s._remove i) ph (some i)) i (some ph)) i (some headId)) headId (some i) := by
  unfold LRU._move_front
  simp [h]

theorem moveFront_chain {K V : Type} {s : LRU K V} {xs ys : List Nat} {i : Nat}
    (h : segB s tailId (xs ++ i :: ys) headId = true)
    (hnd : (xs ++ i :: ys).Nodup)
    (hlow : ∀ j ∈ xs ++ i :: ys, 2 ≤ j) :
    segB (s._move_front i) tailId ((xs ++ ys) ++ [i]) headId = true := by
  have h1 : segB (s._remove i) tailId (xs ++ ys) headId = true := remove_chain h hnd hlow
  have hprvh : prv (s._remove i) headId = some (lastD tailId (xs ++ ys)) :=
    segB_last _ _ _ h1
  have hnd1 : (xs ++ ys).Nodup := by
    refine List.Nodup.sublist ?_ hnd
    exact List.Sublist.append_left (List.sublist_cons_self i ys) xs
  have hlow1 : ∀ j ∈ xs ++ ys, 2 ≤ j := by
    intro j hj
    apply hlow
    rcases List.mem_append.mp hj with h2 | h2
    · exact List.mem_append.mpr (Or.inl h2)
    · exact List.mem_append.mpr (Or.inr (List.mem_cons_of_mem i h2))
  have hi1 : i ∉ xs ++ ys := by
    rw [List.nodup_append] at hnd
    intro hc
    rcases List.mem_append.mp hc with h2 | h2
    · exact hnd.2.2 h2 (by simp)
    · exact (List.nodup_cons.mp hnd.2.1).1 h2
  have hilow : 2 ≤ i := hlow i (by simp)
  have hex_i : (nodeAt (s._remove i) i).isSome = true := by
    rw [remove_isSome]
    exact segB_isSome_mem h i (by simp)
  rw [moveFront_eq_of_prv hprvh]
  exact relink_chain h1 hnd1 hlow1 hi1 hilow hex_i

theorem moveFront_fresh {K V : Type} {s : LRU K V} {l : List Nat} {i : Nat} {n : Node K V}
    (h : segB s tailId l headId = true)
    (hnd : l.Nodup) (hlow : ∀ j ∈ l, 2 ≤ j)
    (hi : i ∉ l) (hilow : 2 ≤ i)
    (hni : nodeAt s i = some n) (hp : n.prev = none) (hq : n.next = none) :
    segB (s._move_front i) tailId (l ++ [i]) headId = true := by
  have hrm : s._remove i = s := by
    unfold LRU._remove
    unfold nodeAt at hni
    simp [hni, hp, hq]
  have hprvh : prv (s._remove i) headId = some (lastD tailId l) := by
    rw [hrm]
    exact segB_last _ _ _ h
  have hex_i : (nodeAt s i).isSome = true := by
    rw [hni]
    rfl
  rw [moveFront_eq_of_prv hprvh, hrm]
  exact relink_chain h hnd hlow hi hilow hex_i

theorem SInv.data_keysND {s : LRU Nat Nat} {e : List (Nat × Nat × Nat)} (h : SInv s e) :
    keysND s.data := by
  apply keysND_of_perm h.data_pm
  unfold keysND
  rw [List.map_map]
  exact h.keys_nd

theorem SInv.data_len {s : LRU Nat Nat} {e : List (Nat × Nat × Nat)} (h : SInv s e) :
    s.data.length = e.length := by
  rw [h.data_pm.length_eq, List.length_map]

theorem SInv.dataKey_some_iff {s : LRU Nat Nat} {e : List (Nat × Nat × Nat)} (h : SInv s e)
    {k i : Nat} : dataKey s k = some i ↔ ∃ v, (i, k, v) ∈ e := by
  constructor
  · intro hk
    have hm : (k, i) ∈ s.data := agetB_some_mem hk
    have hm2 := h.data_pm.mem_iff.mp hm
    rw [List.mem_map] at hm2
    obtain ⟨p, hp, hpe⟩ := hm2
    rw [Prod.mk.injEq] at hpe
    refine ⟨p.2.2, ?_⟩
    have : p = (i, k, p.2.2) := by
      rw [Prod.ext_iff, Prod.ext_iff]
      exact ⟨hpe.2, hpe.1, rfl⟩
    rw [← this]
    exact hp
  · rintro ⟨v, hv⟩
    apply agetB_of_mem h.data_keysND
    rw [h.data_pm.mem_iff]
    rw [List.mem_map]
    exact ⟨(i, k, v), hv, rfl⟩

theorem SInv.dataKey_none_iff {s : LRU Nat Nat} {e : List (Nat × Nat × Nat)} (h : SInv s e)
    {k : Nat} : dataKey s k = none ↔ k ∉ e.map (fun p => p.2.1) := by
  unfold dataKey
  rw [agetB_none_iff]
  constructor
  · intro hk hc
    apply hk
    rw [List.mem_map] at hc
    obtain ⟨p, hp, hpe⟩ := hc
    rw [List.mem_map]
    refine ⟨(p.2.1, p.1), ?_, by rw [← hpe]⟩
    rw [h.data_pm.mem_iff, List.mem_map]
    exact ⟨p, hp, rfl⟩
  · intro hk hc
    apply hk
    rw [List.mem_map] at hc
    obtain ⟨q, hq, hqe⟩ := hc
    have := h.data_pm.mem_iff.mp hq
    rw [List.mem_map] at this
    obtain ⟨p, hp, hpe⟩ := this
    rw [List.mem_map]
    refine ⟨p, hp, ?_⟩
    rw [← hpe] at hqe
    rw [← hqe]

/-- An entry list is reordered by a move-to-front exactly as a
permutation. -/
theorem perm_move {α : Type} (e1 e2 : List α) (p : α) :
    ((e1 ++ e2) ++ [p]).Perm (e1 ++ p :: e2) := by
  have h1 : ((e1 ++ e2) ++ [p]).Perm (p :: (e1 ++ e2)) := List.perm_append_singleton p (e1 ++ e2)
  have h2 : (e1 ++ p :: e2).Perm (p :: (e1 ++ e2)) := List.perm_middle
  exact h1.trans h2.symm

theorem sinv_moveFront {s : LRU Nat Nat} {e1 e2 : List (Nat × Nat × Nat)}
    {p : Nat × Nat × Nat} (hinv : SInv s (e1 ++ p :: e2)) :
    SInv (s._move_front p.1) (e1 ++ e2 ++ [p]) := by
  have hperm : ((e1 ++ e2) ++ [p]).Perm (e1 ++ p :: e2) := perm_move e1 e2 p
  have hchain : segB (s._move_front p.1) tailId
      ((e1.map fun q => q.1) ++ (e2.map fun q => q.1) ++ [p.1]) headId = true := by
    have h0 := hinv.chain
    rw [List.map_append, List.map_cons] at h0
    have h1 := moveFront_chain h0 (by
      have := hinv.ids_nd
      rw [List.map_append, List.map_cons] at this
      exact this) (by
      intro j hj
      rw [← List.map_cons, ← List.map_append] at hj
      rw [List.mem_map] at hj
      obtain ⟨q, hq, hqe⟩ := hj
      rw [← hqe]
      exact hinv.ids_lb q hq)
    exact h1
  constructor
  · rw [List.map_append, List.map_append, List.map_singleton]
    exact hchain
  · intro q hq
    rw [moveFront_keyAt, moveFront_valAt]
    exact hinv.nodes_ok q (hperm.mem_iff.mp hq)
  · exact ((hperm.map fun q => q.1).nodup_iff).mpr hinv.ids_nd
  · intro q hq
    exact hinv.ids_lb q (hperm.mem_iff.mp hq)
  · intro q hq
    rw [moveFront_nextId]
    exact hinv.ids_ub q (hperm.mem_iff.mp hq)
  · intro q hq
    rw [moveFront_nextId]
    obtain ⟨b, hb⟩ := mem_nodes_moveFront hq
    exact hinv.arena_ub (q.1, b) hb
  · rw [moveFront_nextId]
    exact hinv.nid_lb
  · exact ((hperm.map fun q => q.2.1).nodup_iff).mpr hinv.keys_nd
  · rw [moveFront_data]
    exact hinv.data_pm.trans (hperm.map fun q => (q.2.1, q.1)).symm

/- Operation-level lemmas at `K = V = ℕ`. -/

theorem nxt_congr {K V : Type} {s s' : LRU K V} (h : s'.nodes = s.nodes) (j : Nat) :
    nxt s' j = nxt s j := by
  unfold nxt nodeAt
  rw [h]

theorem prv_congr {K V : Type} {s s' : LRU K V} (h : s'.nodes = s.nodes) (j : Nat) :
    prv s' j = prv s j := by
  unfold prv nodeAt
  rw [h]

theorem keyAt_congr {K V : Type} {s s' : LRU K V} (h : s'.nodes = s.nodes) (j : Nat) :
    keyAt s' j = keyAt s j := by
  unfold keyAt nodeAt
  rw [h]

theorem valAt_congr {K V : Type} {s s' : LRU K V} (h : s'.nodes = s.nodes) (j : Nat) :
    valAt s' j = valAt s j := by
  unfold valAt nodeAt
  rw [h]

theorem segB_nodes_congr {K V : Type} {s s' : LRU K V} (h : s'.nodes = s.nodes)
    (p : Nat) (l : List Nat) (e : Nat) : segB s' p l e = segB s p l e :=
  segB_congr (fun j _ => nxt_congr h j) (fun j _ => prv_congr h j)

theorem get_miss {s : LRU Nat Nat} {k : Nat} (hk : dataKey s k = none) :
    LRU.get natBeq s k none = (none, s) := by
  unfold dataKey at hk
  unfold LRU.get
  rw [hk]

theorem get_hit {s : LRU Nat Nat} {e1 e2 : List (Nat × Nat × Nat)} {p : Nat × Nat × Nat}
    (hinv : SInv s (e1 ++ p :: e2)) :
    LRU.get natBeq s p.2.1 none = (some p.2.2, s._move_front p.1) := by
  have hk : dataKey s p.2.1 = some p.1 := by
    apply hinv.dataKey_some_iff.mpr
    exact ⟨p.2.2, by simp⟩
  have hv : valAt (s._move_front p.1) p.1 = some p.2.2 := by
    rw [moveFront_valAt]
    exact (hinv.nodes_ok p (by simp)).2
  unfold dataKey at hk
  unfold LRU.get
  rw [hk]
  simp only
  unfold valAt at hv
  rw [hv]

theorem put_hit {s : LRU Nat Nat} {e1 e2 : List (Nat × Nat × Nat)} {p : Nat × Nat × Nat}
    (v : Nat) (hinv : SInv s (e1 ++ p :: e2)) :
    LRU.put natBeq s p.2.1 v = (some p.2.2, s._move_front p.1) := by
  have hk : dataKey s p.2.1 = some p.1 := by
    apply hinv.dataKey_some_iff.mpr
    exact ⟨p.2.2, by simp⟩
  have hv : valAt (s._move_front p.1) p.1 = some p.2.2 := by
    rw [moveFront_valAt]
    exact (hinv.nodes_ok p (by simp)).2
  unfold dataKey at hk
  unfold LRU.put
  rw [hk]
  simp only
  unfold valAt at hv
  rw [hv]

theorem putFresh3_data {K V : Type} {beq : K → K → Bool} {s : LRU K V} {k : K} (v : V)
    (hk : agetB beq s.data k = none) :
    (putFresh3 beq s k v).data = s.data ++ [(k, s.nextId)] := by
  unfold putFresh3
  rw [moveFront_data]
  exact asetB_of_agetB_none beq s.nextId hk

theorem putFresh3_capacity {K V : Type} {beq : K → K → Bool} {s : LRU K V} {k : K} (v : V) :
    (putFresh3 beq s k v).capacity = s.capacity := by
  unfold putFresh3
  rw [moveFront_capacity]

theorem putFresh3_nextId {K V : Type} {beq : K → K → Bool} {s : LRU K V} {k : K} (v : V) :
    (putFresh3 beq s k v).nextId = s.nextId + 1 := by
  unfold putFresh3
  rw [moveFront_nextId]

theorem putFresh3_valAt_self {K V : Type} (beq : K → K → Bool) (s : LRU K V) (k : K) (v : V) :
    valAt (putFresh3 beq s k v) s.nextId = some v := by
  unfold putFresh3
  rw [moveFront_valAt]
  unfold valAt nodeAt
  rw [agetN_asetN_self]
  rfl

theorem putFresh3_valAt_ne {K V : Type} (beq : K → K → Bool) (s : LRU K V) (k : K) (v : V)
    {j : Nat} (hj : j ≠ s.nextId) : valAt (putFresh3 beq s k v) j = valAt s j := by
  unfold putFresh3
  rw [moveFront_valAt]
  unfold valAt nodeAt
  rw [agetN_asetN_ne _ _ hj]

theorem putFresh3_sinv {s : LRU Nat Nat} {e : List (Nat × Nat × Nat)} {k v : Nat}
    (hinv : SInv s e) (hk : dataKey s k = none) :
    SInv (putFresh3 natBeq s k v) (e ++ [(s.nextId, k, v)]) := by
  have hkeys : k ∉ e.map (fun p => p.2.1) := hinv.dataKey_none_iff.mp hk
  have hnodeAt2 : ∀ j, j ≠ s.nextId →
      nodeAt ({ s with nodes := asetN s.nodes s.nextId ⟨some k, some v, none, none⟩,
                       data := asetB natBeq s.data k s.nextId,
                       nextId := s.nextId + 1 } : LRU Nat Nat) j = nodeAt s j := by
    intro j hj
    unfold nodeAt
    exact agetN_asetN_ne s.nodes _ hj
  have hfreshnode : nodeAt ({ s with
                       nodes := asetN s.nodes s.nextId ⟨some k, some v, none, none⟩,
                       data := asetB natBeq s.data k s.nextId,
                       nextId := s.nextId + 1 } : LRU Nat Nat) s.nextId =
      some ⟨some k, some v, none, none⟩ := by
    unfold nodeAt
    exact agetN_asetN_self s.nodes s.nextId _
  have hids_ne : ∀ j ∈ e.map (fun p => p.1), j ≠ s.nextId := by
    intro j hj
    rw [List.mem_map] at hj
    obtain ⟨q, hq, hqe⟩ := hj
    rw [← hqe]
    exact Nat.ne_of_lt (hinv.ids_ub q hq)
  have hchain2 : segB ({ s with
                       nodes := asetN s.nodes s.nextId ⟨some k, some v, none, none⟩,
                       data := asetB natBeq s.data k s.nextId,
                       nextId := s.nextId + 1 } : LRU Nat Nat) tailId (e.map fun p => p.1) headId = true := by
    rw [segB_congr]
    · exact hinv.chain
    · intro j hj
      have hjne : j ≠ s.nextId := by
        rcases List.mem_cons.mp hj with h1 | h1
        · rw [h1]
          intro hc
          have := hinv.nid_lb
          rw [← hc] at this
          norm_num [tailId] at this
        · exact hids_ne j h1
      unfold nxt
      rw [hnodeAt2 j hjne]
    · intro j hj
      have hjne : j ≠ s.nextId := by
        rcases List.mem_append.mp hj with h1 | h1
        · exact hids_ne j h1
        · simp at h1
          rw [h1]
          intro hc
          have := hinv.nid_lb
          rw [← hc] at this
          norm_num [headId] at this
      unfold prv
      rw [hnodeAt2 j hjne]
  have hmf := moveFront_fresh hchain2 hinv.ids_nd
    (fun j hj => by
      rw [List.mem_map] at hj
      obtain ⟨q, hq, hqe⟩ := hj
      rw [← hqe]
      exact hinv.ids_lb q hq)
    (fun hc => absurd rfl (hids_ne s.nextId hc))
    hinv.nid_lb hfreshnode rfl rfl
  constructor
  · rw [List.map_append, List.map_singleton]
    exact hmf
  · intro q hq
    rcases List.mem_append.mp hq with h1 | h1
    · have hj := hids_ne q.1 (List.mem_map.mpr ⟨q, h1, rfl⟩)
      unfold putFresh3
      rw [moveFront_keyAt, moveFront_valAt]
      unfold keyAt valAt
      rw [hnodeAt2 q.1 hj]
      exact hinv.nodes_ok q h1
    · simp at h1
      rw [h1]
      unfold putFresh3
      rw [moveFront_keyAt, moveFront_valAt]
      unfold keyAt valAt
      rw [hfreshnode]
      exact ⟨rfl, rfl⟩
  · rw [List.map_append, List.map_singleton]
    rw [List.nodup_append]
    refine ⟨hinv.ids_nd, List.nodup_singleton _, ?_⟩
    intro j hj hc
    simp at hc
    rw [hc] at hj
    exact absurd rfl (hids_ne s.nextId hj)
  · intro q hq
    rcases List.mem_append.mp hq with h1 | h1
    · exact hinv.ids_lb q h1
    · simp at h1
      rw [h1]
      exact hinv.nid_lb
  · intro q hq
    rw [putFresh3_nextId]
    rcases List.mem_append.mp hq with h1 | h1
    · exact Nat.lt_succ_of_lt (hinv.ids_ub q h1)
    · simp at h1
      rw [h1]
      exact Nat.lt_succ_self _
  · intro q hq
    rw [putFresh3_nextId]
    unfold putFresh3 at hq
    obtain ⟨b, hb⟩ := mem_nodes_moveFront hq
    simp only at hb
    rcases mem_asetN hb with h1 | h1
    · rw [h1]
      exact Nat.lt_succ_self _
    · exact Nat.lt_succ_of_lt (hinv.arena_ub (q.1, b) h1)
  · rw [putFresh3_nextId]
    exact Nat.le_succ_of_le hinv.nid_lb
  · rw [List.map_append, List.map_singleton]
    rw [List.nodup_append]
    refine ⟨hinv.keys_nd, List.nodup_singleton _, ?_⟩
    intro j hj hc
    simp at hc
    rw [hc] at hj
    exact hkeys hj
  · rw [putFresh3_data v hk]
    rw [List.map_append, List.map_singleton]
    exact hinv.data_pm.append_right _

theorem setData_nextId {K V : Type} (s : LRU K V) (d : List (K × Nat)) :
    ({ s with data := d } : LRU K V).nextId = s.nextId := rfl

theorem setData_capacity {K V : Type} (s : LRU K V) (d : List (K × Nat)) :
    ({ s with data := d } : LRU K V).capacity = s.capacity := rfl

theorem keyAt_setData {K V : Type} (s : LRU K V) (d : List (K × Nat)) (j : Nat) :
    keyAt ({ s with data := d } : LRU K V) j = keyAt s j := rfl

theorem valAt_setData {K V : Type} (s : LRU K V) (d : List (K × Nat)) (j : Nat) :
    valAt ({ s with data := d } : LRU K V) j = valAt s j := rfl

theorem segB_setData {K V : Type} (s : LRU K V) (d : List (K × Nat)) (p : Nat)
    (l : List Nat) (e : Nat) : segB ({ s with data := d } : LRU K V) p l e = segB s p l e :=
  segB_nodes_congr (show ({ s with data := d } : LRU K V).nodes = s.nodes from rfl) p l e

theorem pop_eq {s : LRU Nat Nat} {i : Nat} {rest : List Nat}
    (hch : segB s tailId (i :: rest) headId = true) :
    s._pop = (some i, s._remove i) := by
  have h1 : nxt s tailId = some i := by
    have := segB_head hch
    simpa using this
  unfold LRU._pop
  rw [h1]

theorem put_fresh_noevict {s : LRU Nat Nat} {e : List (Nat × Nat × Nat)} {k v : Nat}
    (hinv : SInv s e) (hk : dataKey s k = none)
    (hcap : ¬((s.data.length : Int) + 1 > s.capacity)) :
    LRU.put natBeq s k v = (none, putFresh3 natBeq s k v) := by
  have hcond : ¬(((putFresh3 natBeq s k v).data.length : Int) > (putFresh3 natBeq s k v).capacity) := by
    rw [putFresh3_data v hk, putFresh3_capacity]
    simp only [List.length_append, List.length_cons, List.length_nil]
    intro hc
    apply hcap
    omega
  unfold dataKey at hk
  unfold LRU.put
  rw [hk]
  simp only
  rw [if_neg hcond]

theorem put_evict_core {s : LRU Nat Nat} {q0 : Nat × Nat × Nat}
    {etail : List (Nat × Nat × Nat)} {k v : Nat}
    (hk : dataKey s k = none)
    (hcap : (s.data.length : Int) + 1 > s.capacity)
    (h3 : SInv (putFresh3 natBeq s k v) (q0 :: etail)) :
    (LRU.put natBeq s k v).1 = none ∧
    SInv (LRU.put natBeq s k v).2 etail ∧
    (LRU.put natBeq s k v).2.capacity = s.capacity ∧
    (LRU.put natBeq s k v).2.nextId = s.nextId + 1 := by
  have hcond : ((putFresh3 natBeq s k v).data.length : Int) > (putFresh3 natBeq s k v).capacity := by
    rw [putFresh3_data v hk, putFresh3_capacity]
    simp only [List.length_append, List.length_cons, List.length_nil]
    omega
  have hchain3 : segB (putFresh3 natBeq s k v) tailId
      (q0.1 :: etail.map (fun p => p.1)) headId = true := by
    have := h3.chain
    rw [List.map_cons] at this
    exact this
  have hpop : (putFresh3 natBeq s k v)._pop = (some q0.1, (putFresh3 natBeq s k v)._remove q0.1) :=
    pop_eq hchain3
  have hkey4 : keyAt ((putFresh3 natBeq s k v)._remove q0.1) q0.1 = some q0.2.1 := by
    rw [remove_keyAt]
    exact (h3.nodes_ok q0 (by simp)).1
  have hEq : LRU.put natBeq s k v =
      (none, { ((putFresh3 natBeq s k v)._remove q0.1) with
               data := aeraseB natBeq ((putFresh3 natBeq s k v)._remove q0.1).data q0.2.1 }) := by
    unfold dataKey at hk
    unfold LRU.put
    rw [hk]
    simp only
    rw [if_pos hcond, hpop]
    simp only [Option.some_bind]
    rw [hkey4]
  have hchain4 : segB ((putFresh3 natBeq s k v)._remove q0.1) tailId
      (etail.map (fun p => p.1)) headId = true := by
    have h0 : segB (putFresh3 natBeq s k v) tailId
        ([] ++ q0.1 :: etail.map (fun p => p.1)) headId = true := by
      simpa using hchain3
    have hnd : (([] : List Nat) ++ q0.1 :: etail.map (fun p => p.1)).Nodup := by
      have := h3.ids_nd
      rw [List.map_cons] at this
      simpa using this
    have hlo : ∀ j ∈ ([] : List Nat) ++ q0.1 :: etail.map (fun p => p.1), 2 ≤ j := by
      intro j hj
      simp only [List.nil_append] at hj
      rcases List.mem_cons.mp hj with h1 | h1
      · rw [h1]
        exact h3.ids_lb q0 (by simp)
      · rw [List.mem_map] at h1
        obtain ⟨q, hq, hqe⟩ := h1
        rw [← hqe]
        exact h3.ids_lb q (by simp [hq])
    have := remove_chain h0 hnd hlo
    simpa using this
  rw [hEq]
  refine ⟨rfl, ?_, ?_, ?_⟩
  · show SInv ({ ((putFresh3 natBeq s k v)._remove q0.1) with
        data := aeraseB natBeq ((putFresh3 natBeq s k v)._remove q0.1).data q0.2.1 } : LRU Nat Nat)
      etail
    have hperm5 : (aeraseB natBeq ((putFresh3 natBeq s k v)._remove q0.1).data q0.2.1).Perm
        (etail.map (fun p : Nat × Nat × Nat => (p.2.1, p.1))) := by
      have hpm : ((putFresh3 natBeq s k v)._remove q0.1).data.Perm
          ((q0.2.1, q0.1) :: etail.map (fun p : Nat × Nat × Nat => (p.2.1, p.1))) := by
        rw [remove_data]
        have := h3.data_pm
        rw [List.map_cons] at this
        exact this
      have hknd : keysND ((q0.2.1, q0.1) :: etail.map (fun p : Nat × Nat × Nat => (p.2.1, p.1))) := by
        unfold keysND
        have := h3.keys_nd
        rw [List.map_cons] at this
        rw [List.map_cons, List.map_map]
        exact this
      have h6 := aeraseB_perm hpm hknd q0.2.1
      rw [show aeraseB natBeq ((q0.2.1, q0.1) :: etail.map (fun p : Nat × Nat × Nat => (p.2.1, p.1))) q0.2.1 = etail.map (fun p : Nat × Nat × Nat => (p.2.1, p.1)) by simp [aeraseB, natBeq]] at h6
      exact h6
    constructor
    · rw [segB_setData]
      exact hchain4
    · intro q hq
      rw [keyAt_setData, valAt_setData, remove_keyAt, remove_valAt]
      exact h3.nodes_ok q (by simp [hq])
    · have := h3.ids_nd
      rw [List.map_cons] at this
      exact (List.nodup_cons.mp this).2
    · intro q hq
      exact h3.ids_lb q (by simp [hq])
    · intro q hq
      rw [setData_nextId, remove_nextId]
      exact h3.ids_ub q (by simp [hq])
    · intro q hq
      obtain ⟨b, hb⟩ := mem_nodes_remove hq
      rw [setData_nextId, remove_nextId]
      exact h3.arena_ub (q.1, b) hb
    · rw [setData_nextId, remove_nextId]
      exact h3.nid_lb
    · have := h3.keys_nd
      rw [List.map_cons] at this
      exact (List.nodup_cons.mp this).2
    · exact hperm5
  · show ({ ((putFresh3 natBeq s k v)._remove q0.1) with
        data := aeraseB natBeq ((putFresh3 natBeq s k v)._remove q0.1).data q0.2.1 } : LRU Nat Nat).capacity = s.capacity
    rw [setData_capacity, remove_capacity]
    exact putFresh3_capacity v
  · show ({ ((putFresh3 natBeq s k v)._remove q0.1) with
        data := aeraseB natBeq ((putFresh3 natBeq s k v)._remove q0.1).data q0.2.1 } : LRU Nat Nat).nextId = s.nextId + 1
    rw [setData_nextId, remove_nextId]
    exact putFresh3_nextId v

theorem put_fresh_evict_cons {s : LRU Nat Nat} {p0 : Nat × Nat × Nat}
    {erest : List (Nat × Nat × Nat)} {k v : Nat}
    (hinv : SInv s (p0 :: erest)) (hk : dataKey s k = none)
    (hcap : (s.data.length : Int) + 1 > s.capacity) :
    (LRU.put natBeq s k v).1 = none ∧
    SInv (LRU.put natBeq s k v).2 (erest ++ [(s.nextId, k, v)]) ∧
    (LRU.put natBeq s k v).2.capacity = s.capacity ∧
    (LRU.put natBeq s k v).2.nextId = s.nextId + 1 := by
  apply put_evict_core hk hcap
  have h0 := @putFresh3_sinv s (p0 :: erest) k v hinv hk
  rw [List.cons_append] at h0
  exact h0

theorem put_fresh_evict_nil {s : LRU Nat Nat} {k v : Nat}
    (hinv : SInv s []) (hk : dataKey s k = none)
    (hcap : (s.data.length : Int) + 1 > s.capacity) :
    (LRU.put natBeq s k v).1 = none ∧
    SInv (LRU.put natBeq s k v).2 [] ∧
    (LRU.put natBeq s k v).2.capacity = s.capacity ∧
    (LRU.put natBeq s k v).2.nextId = s.nextId + 1 := by
  apply put_evict_core hk hcap
  have h0 := @putFresh3_sinv s [] k v hinv hk
  simpa using h0

/- Bookkeeping runner equations. -/

theorem run_append (cap : Int) (ops : List Op) (op : Op) :
    run cap (ops ++ [op]) = step (run cap ops) op := by
  unfold run
  rw [List.foldl_append]
  rfl

theorem runT_append (cap : Int) (ops : List Op) (op : Op) :
    runT cap (ops ++ [op]) = tstep (runT cap ops) op := by
  unfold runT
  rw [List.foldl_append]
  rfl

theorem tstep_st (ts : TState) (op : Op) : (tstep ts op).st = step ts.st op := by
  cases op with
  | put k v => rfl
  | get k => cases h : agetB natBeq ts.st.data k <;> simp [tstep, step, h]

theorem tstep_time (ts : TState) (op : Op) : (tstep ts op).time = ts.time + 1 := by
  cases op with
  | put k v => rfl
  | get k => cases h : agetB natBeq ts.st.data k <;> simp [tstep, h]

theorem runT_st (cap : Int) (ops : List Op) : (runT cap ops).st = run cap ops := by
  induction ops using List.reverseRecOn with
  | nil => rfl
  | append_singleton l op ih =>
    rw [runT_append, run_append, tstep_st, ih]

theorem runT_time (cap : Int) (ops : List Op) : (runT cap ops).time = ops.length := by
  induction ops using List.reverseRecOn with
  | nil => rfl
  | append_singleton l op ih =>
    rw [runT_append, tstep_time, ih, List.length_append, List.length_cons, List.length_nil]

theorem pop_capacity {K V : Type} (s : LRU K V) : (s._pop).2.capacity = s.capacity := by
  unfold LRU._pop
  cases h : nxt s tailId
  · rfl
  · simp only
    rw [remove_capacity]

theorem pop_data {K V : Type} (s : LRU K V) : (s._pop).2.data = s.data := by
  unfold LRU._pop
  cases h : nxt s tailId
  · rfl
  · simp only
    rw [remove_data]

theorem pop_nextId {K V : Type} (s : LRU K V) : (s._pop).2.nextId = s.nextId := by
  unfold LRU._pop
  cases h : nxt s tailId
  · rfl
  · simp only
    rw [remove_nextId]

theorem pop_valAt {K V : Type} (s : LRU K V) (j : Nat) :
    valAt (s._pop).2 j = valAt s j := by
  unfold LRU._pop
  cases h : nxt s tailId
  · rfl
  · simp only
    rw [remove_valAt]

theorem get_snd_capacity {K V : Type} (beq : K → K → Bool) (s : LRU K V) (k : K)
    (d : Option V) : (LRU.get beq s k d).2.capacity = s.capacity := by
  unfold LRU.get
  cases h : agetB beq s.data k <;> simp only [h]
  rw [moveFront_capacity]

theorem get_snd_data {K V : Type} (beq : K → K → Bool) (s : LRU K V) (k : K)
    (d : Option V) : (LRU.get beq s k d).2.data = s.data := by
  unfold LRU.get
  cases h : agetB beq s.data k <;> simp only [h]
  rw [moveFront_data]

theorem get_snd_nextId {K V : Type} (beq : K → K → Bool) (s : LRU K V) (k : K)
    (d : Option V) : (LRU.get beq s k d).2.nextId = s.nextId := by
  unfold LRU.get
  cases h : agetB beq s.data k <;> simp only [h]
  rw [moveFront_nextId]

theorem get_snd_valAt {K V : Type} (beq : K → K → Bool) (s : LRU K V) (k : K)
    (d : Option V) (j : Nat) : valAt (LRU.get beq s k d).2 j = valAt s j := by
  unfold LRU.get
  cases h : agetB beq s.data k <;> simp only [h]
  rw [moveFront_valAt]

theorem put_snd_capacity {K V : Type} (beq : K → K → Bool) (s : LRU K V) (k : K)
    (v : V) : (LRU.put beq s k v).2.capacity = s.capacity := by
  unfold LRU.put
  cases h : agetB beq s.data k <;> simp only [h]
  · split
    · split
      · rw [setData_capacity, pop_capacity, moveFront_capacity]
      · rw [pop_capacity, moveFront_capacity]
    · rw [moveFront_capacity]
  · rw [moveFront_capacity]

theorem step_capacity (s : LRU Nat Nat) (op : Op) : (step s op).capacity = s.capacity := by
  cases op with
  | get k => exact get_snd_capacity natBeq s k none
  | put k v => exact put_snd_capacity natBeq s k v

theorem run_capacity (cap : Int) (ops : List Op) : (run cap ops).capacity = cap := by
  induction ops using List.reverseRecOn with
  | nil => rfl
  | append_singleton l op ih =>
    rw [run_append, step_capacity, ih]

theorem mem_asetB {α : Type} {l : List (Nat × α)} {k : Nat} {v : α} {q : Nat × α}
    (h : q ∈ asetB natBeq l k v) : q = (k, v) ∨ q ∈ l := by
  induction l with
  | nil =>
    simp [asetB] at h
    exact Or.inl h
  | cons p l ih =>
    obtain ⟨k', b⟩ := p
    by_cases h' : natBeq k k' = true
    · rw [asetB] at h
      rw [if_pos h'] at h
      rcases List.mem_cons.mp h with h1 | h1
      · exact Or.inl h1
      · exact Or.inr (List.mem_cons_of_mem _ h1)
    · rw [asetB] at h
      rw [if_neg h'] at h
      rcases List.mem_cons.mp h with h1 | h1
      · exact Or.inr (by rw [h1]; simp)
      · rcases ih h1 with h2 | h2
        · exact Or.inl h2
        · exact Or.inr (List.mem_cons_of_mem _ h2)

theorem accV_asetB_self (acc : List (Nat × Nat)) (k t : Nat) :
    accV (asetB natBeq acc k t) k = t := by
  unfold accV
  rw [agetB_asetB_self]
  rfl

theorem accV_asetB_ne (acc : List (Nat × Nat)) {k k' : Nat} (t : Nat) (h : k' ≠ k) :
    accV (asetB natBeq acc k t) k' = accV acc k' := by
  unfold accV
  rw [agetB_asetB_ne _ _ h]

theorem accV_lt_time {acc : List (Nat × Nat)} {time : Nat} {ks : List Nat}
    (h : RInv acc time ks) {k : Nat} (hs : (agetB natBeq acc k).isSome = true) :
    accV acc k < time := by
  obtain ⟨x, hx⟩ := Option.isSome_iff_exists.mp hs
  have hmem : (k, x) ∈ acc := agetB_some_mem hx
  unfold accV
  rw [hx]
  exact h.time_ub (k, x) hmem

theorem rinv_tick {acc : List (Nat × Nat)} {time : Nat} {ks : List Nat}
    (h : RInv acc time ks) : RInv acc (time + 1) ks :=
  ⟨h.mono, h.live_some, fun q hq => Nat.lt_succ_of_lt (h.time_ub q hq)⟩

theorem rinv_drop {acc : List (Nat × Nat)} {time : Nat} {k0 : Nat} {ks : List Nat}
    (h : RInv acc time (k0 :: ks)) : RInv acc time ks :=
  ⟨(List.pairwise_cons.mp h.mono).2,
   fun k hk => h.live_some k (List.mem_cons_of_mem _ hk),
   h.time_ub⟩

theorem rinv_fresh {acc : List (Nat × Nat)} {time : Nat} {ks : List Nat} {k : Nat}
    (h : RInv acc time ks) (hk : k ∉ ks) :
    RInv (asetB natBeq acc k time) (time + 1) (ks ++ [k]) := by
  constructor
  · rw [List.pairwise_append]
    refine ⟨?_, List.pairwise_singleton _ _, ?_⟩
    · apply h.mono.imp_of_mem
      intro a b ha hb hab
      rw [accV_asetB_ne _ _ (by rintro rfl; exact hk ha),
          accV_asetB_ne _ _ (by rintro rfl; exact hk hb)]
      exact hab
    · intro a ha b hb
      simp at hb
      rw [hb, accV_asetB_self, accV_asetB_ne _ _ (by rintro rfl; exact hk ha)]
      exact accV_lt_time h (h.live_some a ha)
  · intro k' hk'
    rcases List.mem_append.mp hk' with h1 | h1
    · rw [agetB_asetB_ne _ _ (by rintro rfl; exact hk h1)]
      exact h.live_some k' h1
    · simp at h1
      rw [h1, agetB_asetB_self]
      rfl
  · intro q hq
    rcases mem_asetB hq with h1 | h1
    · rw [h1]
      exact Nat.lt_succ_self _
    · exact Nat.lt_succ_of_lt (h.time_ub q h1)

theorem rinv_access {acc : List (Nat × Nat)} {time : Nat} {xs ys : List Nat} {k : Nat}
    (h : RInv acc time (xs ++ k :: ys)) (hnd : (xs ++ k :: ys).Nodup) :
    RInv (asetB natBeq acc k time) (time + 1) ((xs ++ ys) ++ [k]) := by
  have hsub : (xs ++ ys).Sublist (xs ++ k :: ys) :=
    List.Sublist.append_left (List.sublist_cons_self k ys) xs
  have hknot : k ∉ xs ++ ys := by
    rw [List.nodup_append] at hnd
    intro hc
    rcases List.mem_append.mp hc with h1 | h1
    · exact hnd.2.2 h1 (by simp)
    · exact (List.nodup_cons.mp hnd.2.1).1 h1
  have h' : RInv acc time (xs ++ ys) :=
    ⟨h.mono.sublist hsub, fun a ha => h.live_some a (hsub.mem ha), h.time_ub⟩
  exact rinv_fresh h' hknot

theorem get_hit3 {s : LRU Nat Nat} {e1 e2 : List (Nat × Nat × Nat)} {i key val : Nat}
    (hinv : SInv s (e1 ++ (i, key, val) :: e2)) :
    LRU.get natBeq s key none = (some val, s._move_front i) := get_hit hinv

theorem put_hit3 {s : LRU Nat Nat} {e1 e2 : List (Nat × Nat × Nat)} {i key val : Nat}
    (v : Nat) (hinv : SInv s (e1 ++ (i, key, val) :: e2)) :
    LRU.put natBeq s key v = (some val, s._move_front i) := put_hit v hinv

theorem sinv_moveFront3 {s : LRU Nat Nat} {e1 e2 : List (Nat × Nat × Nat)}
    {i key val : Nat} (hinv : SInv s (e1 ++ (i, key, val) :: e2)) :
    SInv (s._move_front i) (e1 ++ e2 ++ [(i, key, val)]) := sinv_moveFront hinv

theorem minv_init (cap : Int) : MInv ⟨LRU.init Nat Nat cap, 0, []⟩ [] := by
  refine ⟨?_, ?_, ?_⟩
  · constructor
    · rfl
    · intro q hq; simp at hq
    · simp
    · intro q hq; simp at hq
    · intro q hq; simp at hq
    · intro q hq
      simp [LRU.init] at hq
      rcases hq with rfl | rfl <;> norm_num [LRU.init, headId, tailId]
    · norm_num [LRU.init]
    · simp
    · simp [LRU.init]
  · constructor
    · simp
    · intro q hq; simp at hq
    · intro q hq; simp at hq
  · simp

theorem minv_step (ts : TState) (e : List (Nat × Nat × Nat)) (op : Op)
    (h : MInv ts e) : ∃ e', MInv (tstep ts op) e' := by
  obtain ⟨hs, hr, hl⟩ := h
  cases op with
  | get k =>
    cases hk : agetB natBeq ts.st.data k with
    | none =>
      refine ⟨e, ?_, ?_, ?_⟩
      · simp only [tstep, hk]
        rw [get_miss hk]
        exact hs
      · simp only [tstep, hk]
        exact rinv_tick hr
      · simp only [tstep, hk]
        rw [get_snd_capacity]
        exact hl
    | some i =>
      obtain ⟨v', hm⟩ := hs.dataKey_some_iff.mp hk
      obtain ⟨e1, e2, he⟩ := List.append_of_mem hm
      subst he
      refine ⟨e1 ++ e2 ++ [(i, k, v')], ?_, ?_, ?_⟩
      · simp only [tstep, hk]
        rw [get_hit3 hs]
        exact sinv_moveFront3 hs
      · simp only [tstep, hk]
        have hr' := hr
        rw [List.map_append, List.map_cons] at hr'
        have hnd := hs.keys_nd
        rw [List.map_append, List.map_cons] at hnd
        have := rinv_access hr' hnd
        rw [List.map_append, List.map_append, List.map_singleton]
        exact this
      · simp only [tstep, hk]
        rw [get_snd_capacity]
        have hlen : (e1 ++ e2 ++ [(i, k, v')]).length = (e1 ++ (i, k, v') :: e2).length := by
          simp [List.length_append, List.length_cons]
        rw [hlen]
        exact hl
  | put k v =>
    cases hk : agetB natBeq ts.st.data k with
    | some i =>
      obtain ⟨v', hm⟩ := hs.dataKey_some_iff.mp hk
      obtain ⟨e1, e2, he⟩ := List.append_of_mem hm
      subst he
      refine ⟨e1 ++ e2 ++ [(i, k, v')], ?_, ?_, ?_⟩
      · simp only [tstep]
        rw [put_hit3 v hs]
        exact sinv_moveFront3 hs
      · simp only [tstep]
        have hr' := hr
        rw [List.map_append, List.map_cons] at hr'
        have hnd := hs.keys_nd
        rw [List.map_append, List.map_cons] at hnd
        have := rinv_access hr' hnd
        rw [List.map_append, List.map_append, List.map_singleton]
        exact this
      · simp only [tstep]
        rw [put_snd_capacity]
        have hlen : (e1 ++ e2 ++ [(i, k, v')]).length = (e1 ++ (i, k, v') :: e2).length := by
          simp [List.length_append, List.length_cons]
        rw [hlen]
        exact hl
    | none =>
      have hknot : k ∉ e.map (fun p => p.2.1) := hs.dataKey_none_iff.mp hk
      by_cases hcap : (ts.st.data.length : Int) + 1 > ts.st.capacity
      · cases e with
        | nil =>
          obtain ⟨h1, h2, h3, h4⟩ := put_fresh_evict_nil hs hk hcap
          refine ⟨[], ?_, ?_, ?_⟩
          · simp only [tstep]
            exact h2
          · simp only [tstep]
            constructor
            · simp
            · intro q hq; simp at hq
            · intro q hq
              rcases mem_asetB hq with h5 | h5
              · rw [h5]
                exact Nat.lt_succ_self _
              · exact Nat.lt_succ_of_lt (hr.time_ub q h5)
          · simp only [tstep]
            rw [put_snd_capacity]
            simp
        | cons p0 erest =>
          obtain ⟨h1, h2, h3, h4⟩ := put_fresh_evict_cons hs hk hcap
          refine ⟨erest ++ [(ts.st.nextId, k, v)], ?_, ?_, ?_⟩
          · simp only [tstep]
            exact h2
          · simp only [tstep]
            have h7 := rinv_fresh hr hknot
            rw [List.map_cons, List.cons_append] at h7
            have h8 := rinv_drop h7
            simp only [List.map_append, List.map_cons, List.map_nil] at h8 ⊢
            exact h8
          · simp only [tstep]
            rw [put_snd_capacity]
            have hlen : (erest ++ [(ts.st.nextId, k, v)]).length = (p0 :: erest).length := by
              simp
            rw [hlen]
            exact hl
      · obtain he := put_fresh_noevict hs hk hcap
        refine ⟨e ++ [(ts.st.nextId, k, v)], ?_, ?_, ?_⟩
        · simp only [tstep]
          rw [he]
          exact putFresh3_sinv hs hk
        · simp only [tstep]
          have := rinv_fresh hr hknot
          rw [List.map_append, List.map_singleton]
          exact this
        · simp only [tstep]
          rw [put_snd_capacity]
          have hdl := hs.data_len
          have h5 : ((e ++ [(ts.st.nextId, k, v)]).length : Int) ≤ ts.st.capacity := by
            simp only [List.length_append, List.length_singleton]
            omega
          exact le_trans h5 (le_max_left _ _)

theorem runT_minv (cap : Int) (ops : List Op) : ∃ e, MInv (runT cap ops) e := by
  induction ops using List.reverseRecOn with
  | nil => exact ⟨[], minv_init cap⟩
  | append_singleton l op ih =>
    obtain ⟨e, he⟩ := ih
    rw [runT_append]
    exact minv_step _ e op he

/- Idempotence of an immediately repeated `_remove`. -/

theorem setNxt_noop {K V : Type} {s : LRU K V} {p : Nat} {o : Option Nat}
    (h : ∀ m, agetN s.nodes p = some m → m.next = o) : setNxt s p o = s := by
  rcases hn : agetN s.nodes p with _ | m
  · unfold setNxt
    rw [hn]
  · unfold setNxt
    rw [hn]
    simp only
    have h2 : ({ m with next := o } : Node K V) = m := by
      rw [← h m hn]
    rw [h2, asetN_of_agetN hn]

theorem setPrv_noop {K V : Type} {s : LRU K V} {p : Nat} {o : Option Nat}
    (h : ∀ m, agetN s.nodes p = some m → m.prev = o) : setPrv s p o = s := by
  rcases hn : agetN s.nodes p with _ | m
  · unfold setPrv
    rw [hn]
  · unfold setPrv
    rw [hn]
    simp only
    have h2 : ({ m with prev := o } : Node K V) = m := by
      rw [← h m hn]
    rw [h2, asetN_of_agetN hn]

theorem remove_idem_aux {K V : Type} (s : LRU K V) (i : Nat)
    (h1 : prv s i ≠ some i) (h2 : nxt s i ≠ some i) :
    (s._remove i)._remove i = s._remove i := by
  rcases hn : agetN s.nodes i with _ | n
  · have h0 : s._remove i = s := by
      unfold LRU._remove
      rw [hn]
    rw [h0, h0]
  · have hpne : n.prev ≠ some i := by
      intro hc
      apply h1
      unfold prv nodeAt
      rw [hn]
      simpa using hc
    have hqne : n.next ≠ some i := by
      intro hc
      apply h2
      unfold nxt nodeAt
      rw [hn]
      simpa using hc
    rcases hp : n.prev with _ | p <;> rcases hq : n.next with _ | q
    · have h0 : s._remove i = s := by
        simp only [LRU._remove, hn, hp, hq]
      rw [h0, h0]
    · have hqi : q ≠ i := by
        intro hc
        apply hqne
        rw [hq, hc]
      have h0 : s._remove i = setPrv s q none := by
        simp only [LRU._remove, hn, hp, hq]
      rw [h0]
      have hni' : agetN (setPrv s q none).nodes i = some n := by
        have hx := nodeAt_setPrv s q none i
        unfold nodeAt at hx
        rw [hx, if_neg (fun hc => hqi hc.symm)]
        exact hn
      have hstep : (setPrv s q none)._remove i = setPrv (setPrv s q none) q none := by
        simp only [LRU._remove, hni', hp, hq]
      rw [hstep]
      apply setPrv_noop
      intro m hm
      have hx := nodeAt_setPrv s q none q
      unfold nodeAt at hx
      rw [hx, if_pos rfl] at hm
      rcases hqq : agetN s.nodes q with _ | mq
      · rw [hqq] at hm
        simp at hm
      · rw [hqq] at hm
        simp at hm
        rw [← hm]
    · have hpi : p ≠ i := by
        intro hc
        apply hpne
        rw [hp, hc]
      have h0 : s._remove i = setNxt s p none := by
        simp only [LRU._remove, hn, hp, hq]
      rw [h0]
      have hni' : agetN (setNxt s p none).nodes i = some n := by
        have hx := nodeAt_setNxt s p none i
        unfold nodeAt at hx
        rw [hx, if_neg (fun hc => hpi hc.symm)]
        exact hn
      have hstep : (setNxt s p none)._remove i = setNxt (setNxt s p none) p none := by
        simp only [LRU._remove, hni', hp, hq]
      rw [hstep]
      apply setNxt_noop
      intro m hm
      have hx := nodeAt_setNxt s p none p
      unfold nodeAt at hx
      rw [hx, if_pos rfl] at hm
      rcases hpp : agetN s.nodes p with _ | mp
      · rw [hpp] at hm
        simp at hm
      · rw [hpp] at hm
        simp at hm
        rw [← hm]
    · have hpi : p ≠ i := by
        intro hc
        apply hpne
        rw [hp, hc]
      have hqi : q ≠ i := by
        intro hc
        apply hqne
        rw [hq, hc]
      have h0 : s._remove i = setPrv (setNxt s p (some q)) q (some p) := by
        simp only [LRU._remove, hn, hp, hq]
      rw [h0]
      have hni' : agetN (setPrv (setNxt s p (some q)) q (some p)).nodes i = some n := by
        have hx := nodeAt_setPrv (setNxt s p (some q)) q (some p) i
        unfold nodeAt at hx
        rw [hx, if_neg (fun hc => hqi hc.symm)]
        have hy := nodeAt_setNxt s p (some q) i
        unfold nodeAt at hy
        rw [hy, if_neg (fun hc => hpi hc.symm)]
        exact hn
      have hstep : (setPrv (setNxt s p (some q)) q (some p))._remove i =
          setPrv (setNxt (setPrv (setNxt s p (some q)) q (some p)) p (some q)) q (some p) := by
        simp only [LRU._remove, hni', hp, hq]
      rw [hstep]
      have hA : setNxt (setPrv (setNxt s p (some q)) q (some p)) p (some q) =
          setPrv (setNxt s p (some q)) q (some p) := by
        apply setNxt_noop
        intro m hm
        have hx := nodeAt_setPrv (setNxt s p (some q)) q (some p) p
        unfold nodeAt at hx
        rw [hx] at hm
        have hy := nodeAt_setNxt s p (some q) p
        unfold nodeAt at hy
        by_cases hpq : p = q
        · subst hpq
          rw [if_pos rfl] at hm
          rw [hy, if_pos rfl] at hm
          rcases hpp : agetN s.nodes p with _ | mp
          · rw [hpp] at hm
            simp at hm
          · rw [hpp] at hm
            simp at hm
            rw [← hm]
        · rw [if_neg hpq, hy, if_pos rfl] at hm
          rcases hpp : agetN s.nodes p with _ | mp
          · rw [hpp] at hm
            simp at hm
          · rw [hpp] at hm
            simp at hm
            rw [← hm]
      rw [hA]
      apply setPrv_noop
      intro m hm
      have hx := nodeAt_setPrv (setNxt s p (some q)) q (some p) q
      unfold nodeAt at hx
      rw [hx, if_pos rfl] at hm
      rcases hqq : agetN (setNxt s p (some q)).nodes q with _ | mq
      · rw [hqq] at hm
        simp at hm
      · rw [hqq] at hm
        simp at hm
        rw [← hm]

/-- C2: for every cache constructed with a positive capacity and every
sequence of operations (in particular every sequence of `put` calls),
after each call the number of live entries — the size of the `_data`
index, which equals the number of non-sentinel nodes chained between
the two sentinels — is at most `capacity`. -/
theorem C2_capacity_invariant (cap : Int) (hcap : 1 ≤ cap) (ops : List Op) :
    ((run cap ops).data.length : Int) ≤ cap ∧
    ∃ il, segB (run cap ops) tailId il headId = true ∧
      il.length = (run cap ops).data.length ∧
      ∀ i ∈ il, (keyAt (run cap ops) i).isSome = true := by
  obtain ⟨e, hs, hr, hl⟩ := runT_minv cap ops
  rw [runT_st] at hs
  have hcapx : (runT cap ops).st.capacity = cap := by
    rw [runT_st, run_capacity]
  rw [hcapx, max_eq_left (by omega : (0 : Int) ≤ cap)] at hl
  constructor
  · rw [hs.data_len]
    exact hl
  · refine ⟨e.map (fun p => p.1), hs.chain, ?_, ?_⟩
    · rw [List.length_map, hs.data_len]
    · intro i hi
      rw [List.mem_map] at hi
      obtain ⟨q, hq, hqe⟩ := hi
      rw [← hqe, (hs.nodes_ok q hq).1]
      rfl

theorem C2_capacity_invariant_witness :
    ((run 2 [Op.put 1 10, Op.put 2 20, Op.put 3 30]).data.length : Int) ≤ 2 ∧
    ∃ il, segB (run 2 [Op.put 1 10, Op.put 2 20, Op.put 3 30]) tailId il headId = true ∧
      il.length = (run 2 [Op.put 1 10, Op.put 2 20, Op.put 3 30]).data.length ∧
      ∀ i ∈ il, (keyAt (run 2 [Op.put 1 10, Op.put 2 20, Op.put 3 30]) i).isSome = true :=
  C2_capacity_invariant 2 (by decide) [Op.put 1 10, Op.put 2 20, Op.put 3 30]

/-- C4 counterexample: after `put 1 10; put 1 20` on a fresh cache of
capacity 2, `get 1` returns the original value `10`, not the claimed
updated value `20` — `put` on an existing key does not overwrite. -/
theorem C4_counterexample :
    (LRU.get natBeq (LRU.put natBeq (run 2 [Op.put 1 10]) 1 20).2 1 none).1 = some 10 ∧
    (LRU.get natBeq (LRU.put natBeq (run 2 [Op.put 1 10]) 1 20).2 1 none).1 ≠ some 20 := by
  decide

/-- C4 (amended): for every reachable cache and key `k` stored with
value `v1`, `put k v2` relocates `k`'s node to the most-recently-used
position (the `_head` sentinel's predecessor) and leaves the index
entry in place, but retains the originally stored value: a subsequent
`get k` still returns `v1`, not `v2`. -/
theorem C4_put_existing (cap : Int) (ops : List Op) (k v1 v2 : Nat)
    (hv : (LRU.get natBeq (run cap ops) k none).1 = some v1) :
    (LRU.get natBeq (LRU.put natBeq (run cap ops) k v2).2 k none).1 = some v1 ∧
    prv (LRU.put natBeq (run cap ops) k v2).2 headId = dataKey (run cap ops) k ∧
    dataKey (LRU.put natBeq (run cap ops) k v2).2 k = dataKey (run cap ops) k := by
  obtain ⟨e, hs, hr, hl⟩ := runT_minv cap ops
  rw [runT_st] at hs
  rcases hk : dataKey (run cap ops) k with _ | i
  · rw [get_miss hk] at hv
    simp at hv
  · obtain ⟨v', hm⟩ := hs.dataKey_some_iff.mp hk
    obtain ⟨e1, e2, he⟩ := List.append_of_mem hm
    subst he
    have hget := get_hit3 hs
    rw [hget] at hv
    simp at hv
    subst hv
    have hput := put_hit3 v2 hs
    rw [hput]
    simp only
    have hs' := sinv_moveFront3 hs
    refine ⟨?_, ?_, ?_⟩
    · have hs'' : SInv ((run cap ops)._move_front i) ((e1 ++ e2) ++ (i, k, v') :: []) := hs'
      have hg2 := get_hit3 hs''
      rw [hg2]
    · have hlast := segB_last _ _ _ hs'.chain
      rw [hlast]
      have hmap : (e1 ++ e2 ++ [(i, k, v')]).map (fun p => p.1) =
          (e1 ++ e2).map (fun p => p.1) ++ [i] := by
        simp
      rw [hmap, lastD_concat]
    · unfold dataKey
      rw [moveFront_data]
      exact hk

theorem C4_put_existing_witness :
    (LRU.get natBeq (LRU.put natBeq (run 2 [Op.put 1 10]) 1 20).2 1 none).1 = some 10 ∧
    prv (LRU.put natBeq (run 2 [Op.put 1 10]) 1 20).2 headId = dataKey (run 2 [Op.put 1 10]) 1 ∧
    dataKey (LRU.put natBeq (run 2 [Op.put 1 10]) 1 20).2 1 = dataKey (run 2 [Op.put 1 10]) 1 :=
  C4_put_existing 2 [Op.put 1 10] 1 10 20 (by decide)

/-- C8 counterexample: in the reachable state after
`put 1 10; put 2 20; put 3 30; get 2` on a capacity-2 cache, the node
with arena id 2 (key 1) has already been unlinked by the eviction, and
the chain between the sentinels is `[4, 3]`.  Calling `_remove` on that
already-unlinked node again changes the chain to `[3]`: node 4 is lost
from the list although its key 3 is still in the index — the repeated
call corrupts the list, contrary to the claim. -/
theorem C8_counterexample :
    dataKey (run 2 [Op.put 1 10, Op.put 2 20, Op.put 3 30, Op.get 2]) 1 = none ∧
    segB (run 2 [Op.put 1 10, Op.put 2 20, Op.put 3 30, Op.get 2]) tailId [4, 3] headId = true ∧
    segB ((run 2 [Op.put 1 10, Op.put 2 20, Op.put 3 30, Op.get 2])._remove 2) tailId [4, 3] headId = false ∧
    segB ((run 2 [Op.put 1 10, Op.put 2 20, Op.put 3 30, Op.get 2])._remove 2) tailId [3] headId = true ∧
    dataKey ((run 2 [Op.put 1 10, Op.put 2 20, Op.put 3 30, Op.get 2])._remove 2) 3 = some 4 := by
  decide

/-- C8 (amended): calling `_remove` a second time on a node immediately
after it was unlinked — with no intervening list modification — leaves
the state unchanged (the repeated call is a no-op), for every state in
which the node is not its own neighbour.  After intervening
modifications the claim fails: the stale `prev`/`next` pointers of the
unlinked node can splice live nodes out of the chain (see the
counterexample). -/
theorem C8_remove_idempotent {K V : Type} (s : LRU K V) (i : Nat)
    (h1 : prv s i ≠ some i) (h2 : nxt s i ≠ some i) :
    (s._remove i)._remove i = s._remove i :=
  remove_idem_aux s i h1 h2

theorem C8_remove_idempotent_witness :
    prv (run 2 [Op.put 1 10, Op.put 2 20]) 2 ≠ some 2 ∧
    nxt (run 2 [Op.put 1 10, Op.put 2 20]) 2 ≠ some 2 ∧
    ((run 2 [Op.put 1 10, Op.put 2 20])._remove 2)._remove 2 =
      (run 2 [Op.put 1 10, Op.put 2 20])._remove 2 :=
  ⟨by decide, by decide, C8_remove_idempotent (run 2 [Op.put 1 10, Op.put 2 20]) 2 (by decide) (by decide)⟩

/-- C1: for every operation sequence, when a `put` of a fresh key
causes an eviction (the insertion pushes the index size past
`capacity`), exactly one entry is evicted, it is removed from both the
list and the index, and it is the least recently accessed of the
current entries, where an access is a `put` of the key or a `get` of
it that hit. -/
theorem C1_eviction_lru (cap : Int) (ops : List Op) (k v : Nat)
    (hfresh : dataKey (run cap ops) k = none)
    (hover : ((run cap ops).data.length : Int) + 1 > cap) :
    ∃ ekey te,
      (ekey = k ∨ (dataKey (run cap ops) ekey).isSome = true) ∧
      dataKey (run cap (ops ++ [Op.put k v])) ekey = none ∧
      (ekey ≠ k → (dataKey (run cap (ops ++ [Op.put k v])) k).isSome = true) ∧
      (∀ k', k' ≠ ekey → k' ≠ k →
        dataKey (run cap (ops ++ [Op.put k v])) k' = dataKey (run cap ops) k') ∧
      (run cap (ops ++ [Op.put k v])).data.length = (run cap ops).data.length ∧
      (∃ il, segB (run cap (ops ++ [Op.put k v])) tailId il headId = true ∧
        il.length = (run cap (ops ++ [Op.put k v])).data.length ∧
        ∀ i ∈ il, keyAt (run cap (ops ++ [Op.put k v])) i ≠ some ekey) ∧
      lastAccess cap (ops ++ [Op.put k v]) ekey = some te ∧
      (∀ k', (dataKey (run cap (ops ++ [Op.put k v])) k').isSome = true → k' ≠ ekey →
        ∃ tk, lastAccess cap (ops ++ [Op.put k v]) k' = some tk ∧ te < tk) := by
  obtain ⟨e, hs, hr, hl⟩ := runT_minv cap ops
  rw [runT_st] at hs
  rw [runT_time] at hr
  have hover' : ((run cap ops).data.length : Int) + 1 > (run cap ops).capacity := by
    rw [run_capacity]
    exact hover
  have hrunstep : run cap (ops ++ [Op.put k v]) = (LRU.put natBeq (run cap ops) k v).2 := by
    rw [run_append]
    rfl
  have hacc : (runT cap (ops ++ [Op.put k v])).acc =
      asetB natBeq (runT cap ops).acc k ops.length := by
    rw [runT_append]
    simp only [tstep]
    rw [runT_time]
  cases e with
  | nil =>
    obtain ⟨h1, h2, h3, h4⟩ := @put_fresh_evict_nil (run cap ops) k v hs hfresh hover'
    have hdata' : (run cap (ops ++ [Op.put k v])).data = [] := by
      rw [hrunstep]
      exact h2.data_pm.eq_nil
    have hdata0 : (run cap ops).data = [] := by
      have := hs.data_pm
      simp at this
      exact this
    refine ⟨k, ops.length, Or.inl rfl, ?_, ?_, ?_, ?_, ?_, ?_, ?_⟩
    · unfold dataKey
      rw [hdata']
      rfl
    · intro hc
      exact absurd rfl hc
    · intro k' hk1 hk2
      unfold dataKey
      rw [hdata', hdata0]
    · rw [hdata', hdata0]
    · refine ⟨[], ?_, ?_, ?_⟩
      · have := h2.chain
        rw [hrunstep]
        simpa using this
      · rw [hdata']
        rfl
      · intro i hi
        simp at hi
    · unfold lastAccess
      rw [hacc, agetB_asetB_self]
    · intro k' hk1 hk2
      unfold dataKey at hk1
      rw [hdata'] at hk1
      simp [agetB] at hk1
  | cons p0 erest =>
    obtain ⟨h1, h2, h3, h4⟩ := @put_fresh_evict_cons (run cap ops) p0 erest k v hs hfresh hover'
    have hknot : k ∉ (p0 :: erest).map (fun p => p.2.1) := hs.dataKey_none_iff.mp hfresh
    have hekey_ne : p0.2.1 ≠ k := by
      intro hc
      apply hknot
      rw [← hc]
      simp
    have hkeys_nd := hs.keys_nd
    rw [List.map_cons] at hkeys_nd
    have hp0_not_rest : p0.2.1 ∉ erest.map (fun p => p.2.1) := (List.nodup_cons.mp hkeys_nd).1
    obtain ⟨te, hte⟩ := Option.isSome_iff_exists.mp
      (hr.live_some p0.2.1 (by rw [List.map_cons]; simp))
    refine ⟨p0.2.1, te, ?_, ?_, ?_, ?_, ?_, ?_, ?_, ?_⟩
    · right
      have hpd : dataKey (run cap ops) p0.2.1 = some p0.1 := by
        apply hs.dataKey_some_iff.mpr
        refine ⟨p0.2.2, ?_⟩
        have hpe : (p0.1, p0.2.1, p0.2.2) = p0 := rfl
        rw [hpe]
        simp
      rw [hpd]
      rfl
    · rw [hrunstep]
      apply h2.dataKey_none_iff.mpr
      rw [List.map_append, List.map_singleton]
      intro hc
      rcases List.mem_append.mp hc with hc1 | hc1
      · exact hp0_not_rest hc1
      · simp at hc1
        exact hekey_ne hc1
    · intro _
      rw [hrunstep]
      have hkd : dataKey (LRU.put natBeq (run cap ops) k v).2 k = some (run cap ops).nextId :=
        h2.dataKey_some_iff.mpr ⟨v, by simp⟩
      rw [hkd]
      rfl
    · intro k' hk1 hk2
      rw [hrunstep]
      rcases hk' : dataKey (run cap ops) k' with _ | i'
      · apply h2.dataKey_none_iff.mpr
        have hnot := hs.dataKey_none_iff.mp hk'
        rw [List.map_append, List.map_singleton]
        intro hc
        rcases List.mem_append.mp hc with hc1 | hc1
        · exact hnot (by rw [List.map_cons]; simp [hc1])
        · simp at hc1
          exact hk2 hc1
      · obtain ⟨v'', hmem⟩ := hs.dataKey_some_iff.mp hk'
        apply h2.dataKey_some_iff.mpr
        refine ⟨v'', ?_⟩
        rcases List.mem_cons.mp hmem with hc1 | hc1
        · exfalso
          apply hk1
          rw [← hc1]
        · exact List.mem_append.mpr (Or.inl hc1)
    · rw [hrunstep, h2.data_len, hs.data_len]
      simp
    · refine ⟨(erest ++ [((run cap ops).nextId, k, v)]).map (fun p => p.1), ?_, ?_, ?_⟩
      · rw [hrunstep]
        exact h2.chain
      · rw [hrunstep, List.length_map, h2.data_len]
      · intro i hi
        rw [List.mem_map] at hi
        obtain ⟨q, hq, hqe⟩ := hi
        rw [hrunstep, ← hqe, (h2.nodes_ok q hq).1]
        intro hc
        simp at hc
        rcases List.mem_append.mp hq with hq1 | hq1
        · exact hp0_not_rest (by rw [← hc]; exact List.mem_map.mpr ⟨q, hq1, rfl⟩)
        · simp at hq1
          apply hekey_ne
          rw [← hc, hq1]
    · unfold lastAccess
      rw [hacc, agetB_asetB_ne _ _ hekey_ne]
      exact hte
    · intro k' hk1 hk2
      rw [hrunstep] at hk1
      obtain ⟨i', hk1'⟩ := Option.isSome_iff_exists.mp hk1
      obtain ⟨v'', hmem⟩ := h2.dataKey_some_iff.mp hk1'
      rcases List.mem_append.mp hmem with hc1 | hc1
      · -- a surviving old entry
        have hk'mem : k' ∈ erest.map (fun p => p.2.1) := List.mem_map.mpr ⟨(i', k', v''), hc1, rfl⟩
        have hk'ne : k' ≠ k := by
          intro hc
          apply hknot
          rw [← hc, List.map_cons]
          simp [hk'mem]
        obtain ⟨tk, htk⟩ := Option.isSome_iff_exists.mp
          (hr.live_some k' (by rw [List.map_cons]; simp [hk'mem]))
        refine ⟨tk, ?_, ?_⟩
        · unfold lastAccess
          rw [hacc, agetB_asetB_ne _ _ hk'ne]
          exact htk
        · have hmono := hr.mono
          rw [List.map_cons] at hmono
          have := (List.pairwise_cons.mp hmono).1 k' hk'mem
          unfold accV at this
          rw [hte, htk] at this
          simpa using this
      · -- the newly inserted key
        simp at hc1
        obtain ⟨hc2, hc3, hc4⟩ := hc1
        refine ⟨ops.length, ?_, ?_⟩
        · unfold lastAccess
          rw [hacc, hc3, agetB_asetB_self]
        · have : accV (runT cap ops).acc p0.2.1 < ops.length :=
            accV_lt_time hr (hr.live_some p0.2.1 (by rw [List.map_cons]; simp))
          unfold accV at this
          rw [hte] at this
          simpa using this

theorem C1_eviction_lru_witness :
    dataKey (run 2 [Op.put 1 10, Op.put 2 20, Op.get 1]) 3 = none ∧
    ((run 2 [Op.put 1 10, Op.put 2 20, Op.get 1]).data.length : Int) + 1 > 2 ∧
    (∃ ekey te,
      (ekey = 3 ∨ (dataKey (run 2 [Op.put 1 10, Op.put 2 20, Op.get 1]) ekey).isSome = true) ∧
      dataKey (run 2 ([Op.put 1 10, Op.put 2 20, Op.get 1] ++ [Op.put 3 5])) ekey = none ∧
      (ekey ≠ 3 → (dataKey (run 2 ([Op.put 1 10, Op.put 2 20, Op.get 1] ++ [Op.put 3 5])) 3).isSome = true) ∧
      (∀ k', k' ≠ ekey → k' ≠ 3 →
        dataKey (run 2 ([Op.put 1 10, Op.put 2 20, Op.get 1] ++ [Op.put 3 5])) k' =
          dataKey (run 2 [Op.put 1 10, Op.put 2 20, Op.get 1]) k') ∧
      (run 2 ([Op.put 1 10, Op.put 2 20, Op.get 1] ++ [Op.put 3 5])).data.length =
        (run 2 [Op.put 1 10, Op.put 2 20, Op.get 1]).data.length ∧
      (∃ il, segB (run 2 ([Op.put 1 10, Op.put 2 20, Op.get 1] ++ [Op.put 3 5])) tailId il headId = true ∧
        il.length = (run 2 ([Op.put 1 10, Op.put 2 20, Op.get 1] ++ [Op.put 3 5])).data.length ∧
        ∀ i ∈ il, keyAt (run 2 ([Op.put 1 10, Op.put 2 20, Op.get 1] ++ [Op.put 3 5])) i ≠ some ekey) ∧
      lastAccess 2 ([Op.put 1 10, Op.put 2 20, Op.get 1] ++ [Op.put 3 5]) ekey = some te ∧
      (∀ k', (dataKey (run 2 ([Op.put 1 10, Op.put 2 20, Op.get 1] ++ [Op.put 3 5])) k').isSome = true →
        k' ≠ ekey →
        ∃ tk, lastAccess 2 ([Op.put 1 10, Op.put 2 20, Op.get 1] ++ [Op.put 3 5]) k' = some tk ∧ te < tk)) :=
  ⟨by decide, by decide, C1_eviction_lru 2 [Op.put 1 10, Op.put 2 20, Op.get 1] 3 5 (by decide) (by decide)⟩

theorem pyValEq_refl (v : PyVal) : pyValEq v v = true := by
  cases v <;> simp [pyValEq]

theorem pyValListEq_refl (l : List PyVal) : pyValListEq l l = true := by
  induction l with
  | nil => rfl
  | cons a t ih => simp [pyValListEq, pyValEq_refl, ih]

theorem pyItemsEq_refl (l : List (String × PyVal)) : pyItemsEq l l = true := by
  induction l with
  | nil => rfl
  | cons p t ih =>
    rcases p with ⟨n, a⟩
    simp [pyItemsEq, pyValEq_refl, ih]

theorem pyKeyEq_refl (k : PyKey) : pyKeyEq k k = true := by
  cases k <;> simp [pyKeyEq, pyValListEq_refl, pyItemsEq_refl]

theorem pyValEq_symm (a b : PyVal) : pyValEq a b = pyValEq b a := by
  cases a <;> cases b <;> simp only [pyValEq] <;> rw [decide_eq_decide] <;> exact eq_comm

theorem pyValListEq_symm (l1 l2 : List PyVal) : pyValListEq l1 l2 = pyValListEq l2 l1 := by
  induction l1 generalizing l2 with
  | nil => cases l2 <;> rfl
  | cons a t ih =>
    cases l2 with
    | nil => rfl
    | cons b t2 => simp [pyValListEq, pyValEq_symm a b, ih t2]

theorem pyItemsEq_symm (l1 l2 : List (String × PyVal)) : pyItemsEq l1 l2 = pyItemsEq l2 l1 := by
  induction l1 generalizing l2 with
  | nil => cases l2 <;> rfl
  | cons p t ih =>
    cases l2 with
    | nil => rcases p with ⟨n, a⟩; rfl
    | cons q t2 =>
      rcases p with ⟨n, a⟩
      rcases q with ⟨m, b⟩
      simp only [pyItemsEq, pyValEq_symm a b, ih t2]
      rw [show (decide (n = m)) = (decide (m = n)) from by rw [decide_eq_decide]; exact eq_comm]

theorem pyKeyEq_symm (k1 k2 : PyKey) : pyKeyEq k1 k2 = pyKeyEq k2 k1 := by
  rcases k1 with ⟨a1, i1⟩ | ⟨a1, i1, ta1, ti1⟩ <;> rcases k2 with ⟨a2, i2⟩ | ⟨a2, i2, ta2, ti2⟩ <;>
    simp only [pyKeyEq]
  · rw [pyValListEq_symm, pyItemsEq_symm]
  · rw [pyValListEq_symm, pyItemsEq_symm,
      show decide (ta1 = ta2) = decide (ta2 = ta1) from by rw [decide_eq_decide]; exact eq_comm,
      show decide (ti1 = ti2) = decide (ti2 = ti1) from by rw [decide_eq_decide]; exact eq_comm]

theorem insertItem_perm (p : String × PyVal) (l : List (String × PyVal)) :
    (insertItem p l).Perm (p :: l) := by
  induction l with
  | nil => exact List.Perm.refl _
  | cons q t ih =>
    unfold insertItem
    by_cases h : p.1 ≤ q.1
    · rw [if_pos h]
    · rw [if_neg h]
      exact (ih.cons q).trans (List.Perm.swap p q t)

theorem sortItems_perm (l : List (String × PyVal)) : (sortItems l).Perm l := by
  induction l with
  | nil => exact List.Perm.refl _
  | cons p t ih => exact (insertItem_perm p (sortItems t)).trans (ih.cons p)

theorem insertItem_sorted (p : String × PyVal) (l : List (String × PyVal))
    (h : l.Pairwise nmLe) : (insertItem p l).Pairwise nmLe := by
  induction l with
  | nil => exact List.pairwise_singleton _ _
  | cons q t ih =>
    rw [List.pairwise_cons] at h
    unfold insertItem
    by_cases hle : p.1 ≤ q.1
    · rw [if_pos hle]
      refine List.Pairwise.cons ?_ (List.Pairwise.cons h.1 h.2)
      intro r hr
      rcases List.mem_cons.mp hr with hr | hr
      · rw [hr]; exact hle
      · exact le_trans hle (h.1 r hr)
    · rw [if_neg hle]
      refine List.Pairwise.cons ?_ (ih h.2)
      intro r hr
      have hr2 : r ∈ p :: t := (insertItem_perm p t).mem_iff.mp hr
      rcases List.mem_cons.mp hr2 with hr2 | hr2
      · rw [hr2]; exact le_of_not_le hle
      · exact h.1 r hr2

theorem sortItems_sorted (l : List (String × PyVal)) : (sortItems l).Pairwise nmLe := by
  induction l with
  | nil => exact List.Pairwise.nil
  | cons p t ih => exact insertItem_sorted p (sortItems t) ih

theorem sorted_perm_eq :
    ∀ {l1 l2 : List (String × PyVal)}, l1.Perm l2 → l1.Pairwise nmLe → l2.Pairwise nmLe →
      (l1.map Prod.fst).Nodup → l1 = l2 := by
  intro l1
  induction l1 with
  | nil =>
    intro l2 hp _ _ _
    exact (hp.nil_eq).symm ▸ rfl
  | cons a t1 ih =>
    intro l2 hp hs1 hs2 hnd
    cases l2 with
    | nil => exact absurd hp.symm.nil_eq (by simp)
    | cons b t2 =>
      rw [List.pairwise_cons] at hs1 hs2
      rw [List.map_cons, List.nodup_cons] at hnd
      have hab : a = b := by
        have hamem : a ∈ b :: t2 := hp.mem_iff.mp (List.mem_cons_self a t1)
        have hbmem : b ∈ a :: t1 := hp.mem_iff.mpr (List.mem_cons_self b t2)
        rcases List.mem_cons.mp hamem with h1 | h1
        · exact h1
        rcases List.mem_cons.mp hbmem with h2 | h2
        · exact h2.symm
        have heq : a.1 = b.1 := le_antisymm (hs1.1 b h2) (hs2.1 a h1)
        exact absurd (heq ▸ List.mem_map.mpr ⟨b, h2, rfl⟩) hnd.1
      subst hab
      have ht : t1 = t2 := ih hp.cons_inv hs1.2 hs2.2 hnd.2
      rw [ht]

/-- C9: `_normalize_key` is insensitive to the order in which keyword arguments
are supplied: for any permutation of the keyword items (with the distinct names
Python guarantees for a call), the computed cache key is identical, in both the
untyped and the typed mode. -/
theorem C9_kwargs_order_independent (args : List PyVal)
    (kw1 kw2 : List (String × PyVal)) (typed : Bool)
    (hperm : kw1.Perm kw2) (hnd : (kw1.map Prod.fst).Nodup) :
    _normalize_key args kw1 typed = _normalize_key args kw2 typed := by
  have hsort : sortItems kw1 = sortItems kw2 := by
    refine sorted_perm_eq ((sortItems_perm kw1).trans (hperm.trans (sortItems_perm kw2).symm))
      (sortItems_sorted kw1) (sortItems_sorted kw2) ?_
    exact (((sortItems_perm kw1).map Prod.fst).nodup_iff).mpr hnd
  unfold _normalize_key
  by_cases h1 : kw1 = []
  · have h2 : kw2 = [] := by
      subst h1
      exact hperm.nil_eq.symm
    rw [h1, h2]
  · have h2 : kw2 ≠ [] := by
      intro hc
      subst hc
      exact h1 hperm.eq_nil
    rw [if_neg h1, if_neg h2, hsort]

/-- C9 witness: swapping two keyword items yields the same key. -/
theorem C9_kwargs_order_independent_witness :
    ([("b", PyVal.int 2), ("a", PyVal.int 1)].Perm [("a", PyVal.int 1), ("b", PyVal.int 2)] ∧
      ((([("b", PyVal.int 2), ("a", PyVal.int 1)] : List (String × PyVal)).map Prod.fst).Nodup)) ∧
    _normalize_key [PyVal.int 7] [("b", PyVal.int 2), ("a", PyVal.int 1)] true =
      _normalize_key [PyVal.int 7] [("a", PyVal.int 1), ("b", PyVal.int 2)] true :=
  ⟨⟨List.Perm.swap ("a", PyVal.int 1) ("b", PyVal.int 2) [], by decide⟩,
    C9_kwargs_order_independent [PyVal.int 7] _ _ true
      (List.Perm.swap ("a", PyVal.int 1) ("b", PyVal.int 2) []) (by decide)⟩

/-- C10: key construction modes.  With `typed=True` a call with the int `1` and
a call with the float `1.0` produce keys that do not compare equal, and through
the wrapper the two calls are two misses filling two cache slots; with
`typed=False` the keys compare equal (Python `1 == 1.0`), and the second call
is a hit on the entry of the first, one slot total. -/
theorem C10_typed_untyped_modes :
    pyKeyEq (_normalize_key [PyVal.int 1] [] true) (_normalize_key [PyVal.float 1] [] true)
        = false ∧
    pyKeyEq (_normalize_key [PyVal.int 1] [] false) (_normalize_key [PyVal.float 1] [] false)
        = true ∧
    (runW (fun _ _ => (Except.ok (some 5) : Except Unit (Option Int))) true
        [([PyVal.int 1], []), ([PyVal.float 1], [])] (initW Int 4)).misses = 2 ∧
    (runW (fun _ _ => (Except.ok (some 5) : Except Unit (Option Int))) true
        [([PyVal.int 1], []), ([PyVal.float 1], [])] (initW Int 4)).hits = 0 ∧
    (runW (fun _ _ => (Except.ok (some 5) : Except Unit (Option Int))) true
        [([PyVal.int 1], []), ([PyVal.float 1], [])] (initW Int 4)).cache.data.length = 2 ∧
    (runW (fun _ _ => (Except.ok (some 5) : Except Unit (Option Int))) false
        [([PyVal.int 1], []), ([PyVal.float 1], [])] (initW Int 4)).misses = 1 ∧
    (runW (fun _ _ => (Except.ok (some 5) : Except Unit (Option Int))) false
        [([PyVal.int 1], []), ([PyVal.float 1], [])] (initW Int 4)).hits = 1 ∧
    (runW (fun _ _ => (Except.ok (some 5) : Except Unit (Option Int))) false
        [([PyVal.int 1], []), ([PyVal.float 1], [])] (initW Int 4)).cache.data.length = 1 := by
  decide

theorem put_fst_of_fresh {K V : Type} (beq : K → K → Bool) (s : LRU K V) (k : K) (v : V)
    (hk : agetB beq s.data k = none) : (LRU.put beq s k v).1 = none := by
  unfold LRU.put
  rw [hk]
  simp only
  split
  · split
    · rfl
    · rfl
  · rfl

/-- C5: the `max_size <= 0` check lives in `lru_cache_impl` itself, which is the
only place a `ValueError` is raised; the `LRUCache` constructor performs no
validation, accepts any capacity (including zero and negative values) and
yields an operational empty cache. -/
theorem C5_configuration (m : Int) :
    lru_cache_impl Nat m =
      (if m ≤ 0 then Except.error "max_size must be > 0" else Except.ok (initW Nat m)) ∧
    (LRU.init Nat Nat m).data = [] ∧
    (LRU.init Nat Nat m).capacity = m ∧
    (LRU.put natBeq (LRU.init Nat Nat m) 1 2).1 = none :=
  ⟨rfl, rfl, rfl, put_fst_of_fresh natBeq (LRU.init Nat Nat m) 1 2 rfl⟩

/-- C5 counterexample: constructing the cache itself with a non-positive
capacity does not fail; a capacity-0 cache accepts `put` (the entry is evicted
at once) and a capacity-`-1` cache is likewise constructed as asked. -/
theorem C5_counterexample :
    (LRU.init Nat Nat 0).data = [] ∧
    (LRU.init Nat Nat 0).capacity = 0 ∧
    (LRU.put natBeq (LRU.init Nat Nat 0) 1 2).2.data.length = 0 ∧
    (LRU.get natBeq (LRU.init Nat Nat 0) 1 none).1 = none ∧
    (LRU.init Nat Nat (-1)).capacity = -1 ∧
    lru_cache_impl Nat 0 = Except.error "max_size must be > 0" :=
  ⟨rfl, rfl, rfl, rfl, rfl, rfl⟩

theorem agetB_some_memB {K α : Type} {beq : K → K → Bool} {l : List (K × α)} {k : K} {a : α} :
    agetB beq l k = some a → ∃ k', beq k k' = true ∧ (k', a) ∈ l := by
  induction l with
  | nil => intro h; simp [agetB] at h
  | cons q l ih =>
    intro h
    obtain ⟨k', b⟩ := q
    by_cases h' : beq k k' = true
    · simp [agetB, h'] at h
      exact ⟨k', h', by simp [h]⟩
    · simp [agetB, h'] at h
      obtain ⟨k'', h1, h2⟩ := ih h
      exact ⟨k'', h1, by simp [h2]⟩

theorem get_fst_of_lookup {K V : Type} (beq : K → K → Bool) (s : LRU K V) (k : K)
    (d : Option V) {i : Nat} (h : agetB beq s.data k = some i) :
    (LRU.get beq s k d).1 = valAt s i := by
  unfold LRU.get
  rw [h]
  simp only
  show valAt (s._move_front i) i = valAt s i
  exact moveFront_valAt s i i

theorem get_fst_of_miss {K V : Type} (beq : K → K → Bool) (s : LRU K V) (k : K)
    (d : Option V) (h : agetB beq s.data k = none) : (LRU.get beq s k d).1 = d := by
  unfold LRU.get
  rw [h]

/-- Probing the same key twice in a row yields the same answer: `get` only
relocates the node, it does not change the index or any stored value. -/
theorem get_get {K V : Type} (beq : K → K → Bool) (s : LRU K V) (k : K) (d : Option V) :
    (LRU.get beq (LRU.get beq s k d).2 k d).1 = (LRU.get beq s k d).1 := by
  cases h : agetB beq s.data k with
  | none =>
    have h2 : agetB beq (LRU.get beq s k d).2.data k = none := by
      rw [get_snd_data]; exact h
    rw [get_fst_of_miss beq _ k d h2, get_fst_of_miss beq s k d h]
  | some i =>
    have h2 : agetB beq (LRU.get beq s k d).2.data k = some i := by
      rw [get_snd_data]; exact h
    rw [get_fst_of_lookup beq _ k d h2, get_fst_of_lookup beq s k d h, get_snd_valAt]

theorem put_exist_eq {K V : Type} (beq : K → K → Bool) (s : LRU K V) (k : K) (v : V)
    {i : Nat} (h : agetB beq s.data k = some i) :
    LRU.put beq s k v = (valAt (s._move_front i) i, s._move_front i) := by
  unfold LRU.put
  rw [h]
  rfl

/-- The fresh-key branch of `put`, described without assuming any structural
invariant: every index entry of the result is an old entry or the new one, all
stored values are those of the inserted-and-relocated state `putFresh3`, and
the id counter advances.  (With eviction the index may lose entries, hence
only a membership bound.) -/
theorem put_fresh_general {K V : Type} (beq : K → K → Bool) (s : LRU K V) (k : K) (v : V)
    (hk : agetB beq s.data k = none) :
    (∀ p, p ∈ (LRU.put beq s k v).2.data → p ∈ s.data ++ [(k, s.nextId)]) ∧
    (∀ j, valAt (LRU.put beq s k v).2 j = valAt (putFresh3 beq s k v) j) ∧
    (LRU.put beq s k v).2.nextId = s.nextId + 1 := by
  unfold LRU.put
  rw [hk]
  simp only
  split
  · split
    · refine ⟨?_, ?_, ?_⟩
      · intro p hp
        have hp2 : p ∈ (putFresh3 beq s k v)._pop.2.data :=
          (aeraseB_sublist beq _ _).subset hp
        rw [pop_data, putFresh3_data v hk] at hp2
        exact hp2
      · intro j
        show valAt (putFresh3 beq s k v)._pop.2 j = valAt (putFresh3 beq s k v) j
        rw [pop_valAt]
      · show (putFresh3 beq s k v)._pop.2.nextId = s.nextId + 1
        rw [pop_nextId]
        exact @putFresh3_nextId K V beq s k v
    · refine ⟨?_, ?_, ?_⟩
      · intro p hp
        have hp2 : p ∈ (putFresh3 beq s k v)._pop.2.data := hp
        rw [pop_data, putFresh3_data v hk] at hp2
        exact hp2
      · intro j
        show valAt (putFresh3 beq s k v)._pop.2 j = valAt (putFresh3 beq s k v) j
        rw [pop_valAt]
      · show (putFresh3 beq s k v)._pop.2.nextId = s.nextId + 1
        rw [pop_nextId]
        exact @putFresh3_nextId K V beq s k v
  · refine ⟨?_, fun j => rfl, ?_⟩
    · intro p hp
      have hp2 : p ∈ (putFresh3 beq s k v).data := hp
      rw [putFresh3_data v hk] at hp2
      exact hp2
    · exact @putFresh3_nextId K V beq s k v

/-- Any call whose cache probe does not produce a stored non-`None` value takes
the miss path: the miss and invocation counters advance, the hit counter does
not, the call returns whatever `func` returns, and if `func` fails the cache
is left exactly as the probe left it (no entry is stored). -/
theorem wrapper_miss_shape {ν ε : Type}
    (f : List PyVal → List (String × PyVal) → Except ε (Option ν)) (typed : Bool)
    (st : WState ν) (a : List PyVal) (kw : List (String × PyVal))
    (hmiss : ∀ w : ν,
      (LRU.get pyKeyEq st.cache (_normalize_key a kw typed) none).1 ≠ some (some w)) :
    (wrapper f typed st a kw).1 = f a kw ∧
    (wrapper f typed st a kw).2.misses = st.misses + 1 ∧
    (wrapper f typed st a kw).2.hits = st.hits ∧
    (wrapper f typed st a kw).2.fcalls = st.fcalls + 1 ∧
    (∀ er, f a kw = Except.error er →
      (wrapper f typed st a kw).2.cache =
        (LRU.get pyKeyEq st.cache (_normalize_key a kw typed) none).2) := by
  rcases hr : (LRU.get pyKeyEq st.cache (_normalize_key a kw typed) none).1 with _ | ow
  · cases hfa : f a kw with
    | error e =>
      refine ⟨?_, ?_, ?_, ?_, ?_⟩
      · simp [wrapper, hr, hfa]
      · simp [wrapper, hr, hfa]
      · simp [wrapper, hr, hfa]
      · simp [wrapper, hr, hfa]
      · intro er her
        simp [wrapper, hr, hfa]
    | ok value =>
      refine ⟨?_, ?_, ?_, ?_, ?_⟩
      · simp [wrapper, hr, hfa]
      · simp [wrapper, hr, hfa]
      · simp [wrapper, hr, hfa]
      · simp [wrapper, hr, hfa]
      · intro er her
        exact Except.noConfusion her
  · rcases ow with _ | w
    · cases hfa : f a kw with
      | error e =>
        refine ⟨?_, ?_, ?_, ?_, ?_⟩
        · simp [wrapper, hr, hfa]
        · simp [wrapper, hr, hfa]
        · simp [wrapper, hr, hfa]
        · simp [wrapper, hr, hfa]
        · intro er her
          simp [wrapper, hr, hfa]
      | ok value =>
        refine ⟨?_, ?_, ?_, ?_, ?_⟩
        · simp [wrapper, hr, hfa]
        · simp [wrapper, hr, hfa]
        · simp [wrapper, hr, hfa]
        · simp [wrapper, hr, hfa]
        · intro er her
          exact Except.noConfusion her
    · exact absurd hr (hmiss w)

/-- C7: on a cache miss, an exception of the wrapped function propagates to the
caller unchanged, the miss is counted but nothing is stored under the key (the
index is untouched), and a second identical call misses again and re-invokes
the function (its invocation counter advances once more) with the same error. -/
theorem C7_error_propagation {ν ε : Type}
    (f : List PyVal → List (String × PyVal) → Except ε (Option ν)) (typed : Bool)
    (st : WState ν) (a : List PyVal) (kw : List (String × PyVal)) (er : ε)
    (hmiss : ∀ w : ν,
      (LRU.get pyKeyEq st.cache (_normalize_key a kw typed) none).1 ≠ some (some w))
    (herr : f a kw = Except.error er) :
    (wrapper f typed st a kw).1 = Except.error er ∧
    (wrapper f typed st a kw).2.cache.data = st.cache.data ∧
    (wrapper f typed st a kw).2.misses = st.misses + 1 ∧
    (wrapper f typed st a kw).2.hits = st.hits ∧
    (wrapper f typed st a kw).2.fcalls = st.fcalls + 1 ∧
    (wrapper f typed (wrapper f typed st a kw).2 a kw).1 = Except.error er ∧
    (wrapper f typed (wrapper f typed st a kw).2 a kw).2.fcalls = st.fcalls + 2 := by
  obtain ⟨h1, h2, h3, h4, h5⟩ := wrapper_miss_shape f typed st a kw hmiss
  have hcache : (wrapper f typed st a kw).2.cache =
      (LRU.get pyKeyEq st.cache (_normalize_key a kw typed) none).2 := h5 er herr
  have hdata : (wrapper f typed st a kw).2.cache.data = st.cache.data := by
    rw [hcache, get_snd_data]
  have hmiss2 : ∀ w : ν,
      (LRU.get pyKeyEq (wrapper f typed st a kw).2.cache
        (_normalize_key a kw typed) none).1 ≠ some (some w) := by
    intro w
    rw [hcache, get_get pyKeyEq st.cache (_normalize_key a kw typed) none]
    exact hmiss w
  obtain ⟨g1, _, _, g4, _⟩ :=
    wrapper_miss_shape f typed (wrapper f typed st a kw).2 a kw hmiss2
  refine ⟨by rw [h1]; exact herr, hdata, h2, h3, h4, by rw [g1]; exact herr, ?_⟩
  rw [g4, h4]

/-- C7 witness: a function that always fails, called twice through a fresh
wrapper. -/
theorem C7_error_propagation_witness :
    (wrapper (fun _ _ => (Except.error "boom" : Except String (Option Nat))) false
        (initW Nat 2) [PyVal.int 1] []).1 = Except.error "boom" ∧
    (wrapper (fun _ _ => (Except.error "boom" : Except String (Option Nat))) false
        (initW Nat 2) [PyVal.int 1] []).2.cache.data = (initW Nat 2).cache.data ∧
    (wrapper (fun _ _ => (Except.error "boom" : Except String (Option Nat))) false
        (initW Nat 2) [PyVal.int 1] []).2.misses = (initW Nat 2).misses + 1 ∧
    (wrapper (fun _ _ => (Except.error "boom" : Except String (Option Nat))) false
        (initW Nat 2) [PyVal.int 1] []).2.hits = (initW Nat 2).hits ∧
    (wrapper (fun _ _ => (Except.error "boom" : Except String (Option Nat))) false
        (initW Nat 2) [PyVal.int 1] []).2.fcalls = (initW Nat 2).fcalls + 1 ∧
    (wrapper (fun _ _ => (Except.error "boom" : Except String (Option Nat))) false
        (wrapper (fun _ _ => (Except.error "boom" : Except String (Option Nat))) false
          (initW Nat 2) [PyVal.int 1] []).2 [PyVal.int 1] []).1 = Except.error "boom" ∧
    (wrapper (fun _ _ => (Except.error "boom" : Except String (Option Nat))) false
        (wrapper (fun _ _ => (Except.error "boom" : Except String (Option Nat))) false
          (initW Nat 2) [PyVal.int 1] []).2 [PyVal.int 1] []).2.fcalls =
      (initW Nat 2).fcalls + 2 :=
  C7_error_propagation (fun _ _ => (Except.error "boom" : Except String (Option Nat))) false
    (initW Nat 2) [PyVal.int 1] [] "boom" (fun w h => Option.noConfusion h) rfl

theorem knoneC_congr {ν : Type} (κ : PyKey) {c c' : LRU PyKey (Option ν)}
    (hd : c'.data = c.data) (hv : ∀ j, valAt c' j = valAt c j) (hn : c'.nextId = c.nextId)
    (h : KNoneC κ c) : KNoneC κ c' := by
  intro p hp
  rw [hd] at hp
  refine ⟨fun hm => ?_, ?_⟩
  · rw [hv p.2]
    exact (h p hp).1 hm
  · rw [hn]
    exact (h p hp).2

theorem knoneC_put {ν : Type} (κ : PyKey) (c : LRU PyKey (Option ν)) (κ' : PyKey)
    (value : Option ν) (hval : pyKeyEq κ' κ = true → value = none)
    (h : KNoneC κ c) : KNoneC κ (LRU.put pyKeyEq c κ' value).2 := by
  cases hlook : agetB pyKeyEq c.data κ' with
  | some i =>
    rw [put_exist_eq pyKeyEq c κ' value hlook]
    exact knoneC_congr κ (moveFront_data c i) (fun j => moveFront_valAt c i j)
      (moveFront_nextId c i) h
  | none =>
    obtain ⟨hmem, hvals, hnid⟩ := put_fresh_general pyKeyEq c κ' value hlook
    intro p hp
    rcases List.mem_append.mp (hmem p hp) with hold | hnew
    · have hb := (h p hold).2
      have hne : p.2 ≠ c.nextId := Nat.ne_of_lt hb
      refine ⟨fun hm => ?_, ?_⟩
      · rw [hvals p.2, putFresh3_valAt_ne pyKeyEq c κ' value hne]
        exact (h p hold).1 hm
      · rw [hnid]
        omega
    · have hpe : p = (κ', c.nextId) := by simpa using hnew
      subst hpe
      refine ⟨fun hm => ?_, ?_⟩
      · rw [hvals c.nextId, putFresh3_valAt_self pyKeyEq c κ' value, hval hm]
      · rw [hnid]
        omega

theorem knone_wrapper_step {ν ε : Type}
    (f : List PyVal → List (String × PyVal) → Except ε (Option ν)) (typed : Bool)
    (κ : PyKey)
    (Hf : ∀ a kw, pyKeyEq (_normalize_key a kw typed) κ = true → f a kw = Except.ok none)
    (st : WState ν) (a' : List PyVal) (kw' : List (String × PyVal))
    (h : KNoneC κ st.cache) : KNoneC κ (wrapper f typed st a' kw').2.cache := by
  have hg : KNoneC κ (LRU.get pyKeyEq st.cache (_normalize_key a' kw' typed) none).2 :=
    knoneC_congr κ (get_snd_data pyKeyEq st.cache _ none)
      (fun j => get_snd_valAt pyKeyEq st.cache _ none j)
      (get_snd_nextId pyKeyEq st.cache _ none) h
  have hv : pyKeyEq (_normalize_key a' kw' typed) κ = true →
      ∀ value, f a' kw' = Except.ok value → value = none := by
    intro hm value hfa
    have := Hf a' kw' hm
    rw [hfa] at this
    exact (Except.ok.injEq _ _).mp this
  rcases hr : (LRU.get pyKeyEq st.cache (_normalize_key a' kw' typed) none).1 with _ | ow
  · cases hfa : f a' kw' with
    | error e =>
      have hc : (wrapper f typed st a' kw').2.cache =
          (LRU.get pyKeyEq st.cache (_normalize_key a' kw' typed) none).2 := by
        simp [wrapper, hr, hfa]
      rw [hc]
      exact hg
    | ok value =>
      have hc : (wrapper f typed st a' kw').2.cache =
          (LRU.put pyKeyEq (LRU.get pyKeyEq st.cache (_normalize_key a' kw' typed) none).2
            (_normalize_key a' kw' typed) value).2 := by
        simp [wrapper, hr, hfa]
      rw [hc]
      exact knoneC_put κ _ _ value (fun hm => hv hm value hfa) hg
  · rcases ow with _ | w
    · cases hfa : f a' kw' with
      | error e =>
        have hc : (wrapper f typed st a' kw').2.cache =
            (LRU.get pyKeyEq st.cache (_normalize_key a' kw' typed) none).2 := by
          simp [wrapper, hr, hfa]
        rw [hc]
        exact hg
      | ok value =>
        have hc : (wrapper f typed st a' kw').2.cache =
            (LRU.put pyKeyEq (LRU.get pyKeyEq st.cache (_normalize_key a' kw' typed) none).2
              (_normalize_key a' kw' typed) value).2 := by
          simp [wrapper, hr, hfa]
        rw [hc]
        exact knoneC_put κ _ _ value (fun hm => hv hm value hfa) hg
    · have hc : (wrapper f typed st a' kw').2.cache =
          (LRU.get pyKeyEq st.cache (_normalize_key a' kw' typed) none).2 := by
        simp [wrapper, hr]
      rw [hc]
      exact hg

theorem knone_runW {ν ε : Type}
    (f : List PyVal → List (String × PyVal) → Except ε (Option ν)) (typed : Bool)
    (κ : PyKey)
    (Hf : ∀ a kw, pyKeyEq (_normalize_key a kw typed) κ = true → f a kw = Except.ok none) :
    ∀ (cs : List (List PyVal × List (String × PyVal))) (st : WState ν),
      KNoneC κ st.cache → KNoneC κ (runW f typed cs st).cache := by
  intro cs
  induction cs with
  | nil => intro st h; exact h
  | cons c t ih =>
    intro st h
    exact ih _ (knone_wrapper_step f typed κ Hf st c.1 c.2 h)

/-- C6: a wrapped function that returns `None` for some arguments never scores
a cache hit on those arguments.  Under the spec's purity assumption (every call
whose arguments normalize to the same key returns the same result, here
`None`), after any sequence of prior calls through the wrapper a call with
those arguments takes the miss path: the miss and invocation counters advance,
the hit counter does not, and `None` is returned — even though the `put` of
every such earlier call did store an entry for the key. -/
theorem C6_none_result_never_hits {ν ε : Type}
    (f : List PyVal → List (String × PyVal) → Except ε (Option ν)) (typed : Bool)
    (ms : Int) (a : List PyVal) (kw : List (String × PyVal))
    (Hf : ∀ a' kw', pyKeyEq (_normalize_key a' kw' typed) (_normalize_key a kw typed) = true →
      f a' kw' = Except.ok none)
    (cs : List (List PyVal × List (String × PyVal))) :
    (wrapper f typed (runW f typed cs (initW ν ms)) a kw).1 = Except.ok none ∧
    (wrapper f typed (runW f typed cs (initW ν ms)) a kw).2.misses =
      (runW f typed cs (initW ν ms)).misses + 1 ∧
    (wrapper f typed (runW f typed cs (initW ν ms)) a kw).2.hits =
      (runW f typed cs (initW ν ms)).hits ∧
    (wrapper f typed (runW f typed cs (initW ν ms)) a kw).2.fcalls =
      (runW f typed cs (initW ν ms)).fcalls + 1 := by
  have hK : KNoneC (_normalize_key a kw typed) (runW f typed cs (initW ν ms)).cache := by
    refine knone_runW f typed _ Hf cs (initW ν ms) ?_
    intro p hp
    simp [initW, LRU.init] at hp
  have hmiss : ∀ w : ν,
      (LRU.get pyKeyEq (runW f typed cs (initW ν ms)).cache
        (_normalize_key a kw typed) none).1 ≠ some (some w) := by
    intro w hc
    cases hlook : agetB pyKeyEq (runW f typed cs (initW ν ms)).cache.data
        (_normalize_key a kw typed) with
    | none =>
      rw [get_fst_of_miss pyKeyEq _ _ none hlook] at hc
      exact Option.noConfusion hc
    | some i =>
      rw [get_fst_of_lookup pyKeyEq _ _ none hlook] at hc
      obtain ⟨k', hb, hmem⟩ := agetB_some_memB hlook
      have hb2 : pyKeyEq k' (_normalize_key a kw typed) = true := by
        rw [pyKeyEq_symm]
        exact hb
      have hvn := (hK (k', i) hmem).1 hb2
      rw [hvn] at hc
      simp at hc
  obtain ⟨h1, h2, h3, h4, _⟩ :=
    wrapper_miss_shape f typed (runW f typed cs (initW ν ms)) a kw hmiss
  refine ⟨?_, h2, h3, h4⟩
  rw [h1]
  exact Hf a kw (pyKeyEq_refl _)

/-- C6 witness: a constant-`None` function, one prior call with the same
arguments, then the probed call — still a miss. -/
theorem C6_none_result_never_hits_witness :
    ((∀ a' kw', pyKeyEq (_normalize_key a' kw' false) (_normalize_key [PyVal.int 1] [] false)
          = true →
        (fun _ _ => (Except.ok none : Except Unit (Option Nat))) a' kw' = Except.ok none) ∧
      True) ∧
    ((wrapper (fun _ _ => (Except.ok none : Except Unit (Option Nat))) false
        (runW (fun _ _ => (Except.ok none : Except Unit (Option Nat))) false
          [([PyVal.int 1], [])] (initW Nat 2)) [PyVal.int 1] []).1 = Except.ok none ∧
      (wrapper (fun _ _ => (Except.ok none : Except Unit (Option Nat))) false
        (runW (fun _ _ => (Except.ok none : Except Unit (Option Nat))) false
          [([PyVal.int 1], [])] (initW Nat 2)) [PyVal.int 1] []).2.misses =
        (runW (fun _ _ => (Except.ok none : Except Unit (Option Nat))) false
          [([PyVal.int 1], [])] (initW Nat 2)).misses + 1 ∧
      (wrapper (fun _ _ => (Except.ok none : Except Unit (Option Nat))) false
        (runW (fun _ _ => (Except.ok none : Except Unit (Option Nat))) false
          [([PyVal.int 1], [])] (initW Nat 2)) [PyVal.int 1] []).2.hits =
        (runW (fun _ _ => (Except.ok none : Except Unit (Option Nat))) false
          [([PyVal.int 1], [])] (initW Nat 2)).hits ∧
      (wrapper (fun _ _ => (Except.ok none : Except Unit (Option Nat))) false
        (runW (fun _ _ => (Except.ok none : Except Unit (Option Nat))) false
          [([PyVal.int 1], [])] (initW Nat 2)) [PyVal.int 1] []).2.fcalls =
        (runW (fun _ _ => (Except.ok none : Except Unit (Option Nat))) false
          [([PyVal.int 1], [])] (initW Nat 2)).fcalls + 1) :=
  ⟨⟨fun _ _ _ => rfl, trivial⟩,
    C6_none_result_never_hits (fun _ _ => (Except.ok none : Except Unit (Option Nat))) false
      2 [PyVal.int 1] [] (fun _ _ _ => rfl) [([PyVal.int 1], [])]⟩

theorem put_fresh_noevict_general {K V : Type} (beq : K → K → Bool) (s : LRU K V)
    (k : K) (v : V) (hk : agetB beq s.data k = none)
    (hcap : ¬((s.data.length : Int) + 1 > s.capacity)) :
    LRU.put beq s k v = (none, putFresh3 beq s k v) := by
  have hcond : ¬(((putFresh3 beq s k v).data.length : Int) > (putFresh3 beq s k v).capacity) := by
    rw [putFresh3_data v hk, putFresh3_capacity]
    simp only [List.length_append, List.length_cons, List.length_nil]
    intro hc
    apply hcap
    omega
  unfold LRU.put
  rw [hk]
  simp only
  rw [if_neg hcond]

/-- A call whose key is present with a stored non-`None` value is a hit: the
hit counter advances, nothing else changes except the node relocation. -/
theorem wrapper_hit_here {ν ε : Type}
    (f : List PyVal → List (String × PyVal) → Except ε (Option ν)) (typed : Bool)
    (st : WState ν) (a : List PyVal) (kw : List (String × PyVal)) (v : ν) {i : Nat}
    (hlook : agetB pyKeyEq st.cache.data (_normalize_key a kw typed) = some i)
    (hval : valAt st.cache i = some (some v)) :
    wrapper f typed st a kw =
      (Except.ok (some v),
        { st with
          cache := (LRU.get pyKeyEq st.cache (_normalize_key a kw typed) none).2,
          hits := st.hits + 1 }) := by
  have hr : (LRU.get pyKeyEq st.cache (_normalize_key a kw typed) none).1 = some (some v) := by
    rw [get_fst_of_lookup pyKeyEq st.cache _ none hlook]
    exact hval
  simp [wrapper, hr]

/-- The first call from a fresh decorator state with capacity at least 1, for a
function returning `value`: a miss that stores `value` at id 2. -/
theorem wrapper_first_miss {ν ε : Type}
    (f : List PyVal → List (String × PyVal) → Except ε (Option ν)) (typed : Bool)
    (ms : Int) (hms : 1 ≤ ms) (a : List PyVal) (kw : List (String × PyVal))
    (value : Option ν) (hf : f a kw = Except.ok value) :
    (wrapper f typed (initW ν ms) a kw).1 = Except.ok value ∧
    (wrapper f typed (initW ν ms) a kw).2.cache.data =
      [(_normalize_key a kw typed, 2)] ∧
    valAt (wrapper f typed (initW ν ms) a kw).2.cache 2 = some value ∧
    (wrapper f typed (initW ν ms) a kw).2.hits = 0 ∧
    (wrapper f typed (initW ν ms) a kw).2.misses = 1 ∧
    (wrapper f typed (initW ν ms) a kw).2.fcalls = 1 := by
  have hget : LRU.get pyKeyEq (initW ν ms).cache (_normalize_key a kw typed) none =
      (none, (initW ν ms).cache) := rfl
  have hget2 : LRU.get pyKeyEq (LRU.init PyKey (Option ν) ms) (_normalize_key a kw typed) none =
      (none, LRU.init PyKey (Option ν) ms) := rfl
  have hput : LRU.put pyKeyEq (initW ν ms).cache (_normalize_key a kw typed) value =
      (none, putFresh3 pyKeyEq (initW ν ms).cache (_normalize_key a kw typed) value) := by
    refine put_fresh_noevict_general pyKeyEq _ _ value rfl ?_
    show ¬(((0 : Nat) : Int) + 1 > ms)
    omega
  have hc : (wrapper f typed (initW ν ms) a kw).2.cache =
      putFresh3 pyKeyEq (initW ν ms).cache (_normalize_key a kw typed) value := by
    simp [wrapper, hget, hf, hput]
  refine ⟨?_, ?_, ?_, ?_, ?_⟩
  · simp [wrapper, hget, hf]
  · rw [hc,
      @putFresh3_data PyKey (Option ν) pyKeyEq (initW ν ms).cache
        (_normalize_key a kw typed) value rfl]
    rfl
  · rw [hc]
    exact putFresh3_valAt_self pyKeyEq _ _ value
  · simp [wrapper, initW, hget2, hf]
  · constructor
    · simp [wrapper, initW, hget2, hf]
    · simp [wrapper, initW, hget2, hf]

/-- Repeated calls while the key sits in a one-entry index with a non-`None`
value: every call is a hit, nothing but the hit counter moves. -/
theorem runW_hits_aux {ν ε : Type}
    (f : List PyVal → List (String × PyVal) → Except ε (Option ν)) (typed : Bool)
    (a : List PyVal) (kw : List (String × PyVal)) (v : ν) :
    ∀ (j : Nat) (st : WState ν),
      agetB pyKeyEq st.cache.data (_normalize_key a kw typed) = some 2 →
      valAt st.cache 2 = some (some v) →
      (runW f typed (List.replicate j (a, kw)) st).misses = st.misses ∧
      (runW f typed (List.replicate j (a, kw)) st).hits = st.hits + j ∧
      (runW f typed (List.replicate j (a, kw)) st).fcalls = st.fcalls ∧
      (runW f typed (List.replicate j (a, kw)) st).cache.data = st.cache.data := by
  intro j
  induction j with
  | zero => intro st _ _; exact ⟨rfl, rfl, rfl, rfl⟩
  | succ j ih =>
    intro st hlook hval
    have hw := wrapper_hit_here f typed st a kw v hlook hval
    have hstep : runW f typed (List.replicate (j + 1) (a, kw)) st =
        runW f typed (List.replicate j (a, kw)) (wrapper f typed st a kw).2 := by
      rw [List.replicate_succ]
      rfl
    have hdata : (wrapper f typed st a kw).2.cache.data = st.cache.data := by
      rw [hw]
      show (LRU.get pyKeyEq st.cache (_normalize_key a kw typed) none).2.data = st.cache.data
      rw [get_snd_data]
    have hval2 : valAt (wrapper f typed st a kw).2.cache 2 = some (some v) := by
      rw [hw]
      show valAt (LRU.get pyKeyEq st.cache (_normalize_key a kw typed) none).2 2 = some (some v)
      rw [get_snd_valAt]
      exact hval
    have hlook2 : agetB pyKeyEq (wrapper f typed st a kw).2.cache.data
        (_normalize_key a kw typed) = some 2 := by
      rw [hdata]
      exact hlook
    obtain ⟨ih1, ih2, ih3, ih4⟩ := ih (wrapper f typed st a kw).2 hlook2 hval2
    rw [hstep]
    refine ⟨?_, ?_, ?_, ?_⟩
    · rw [ih1, hw]
    · rw [ih2, hw]
      show st.hits + 1 + j = st.hits + (j + 1)
      omega
    · rw [ih3, hw]
    · rw [ih4, hdata]

/-- C3 (amended): for a wrapped function returning a non-`None` value on the
probed arguments, `n ≥ 1` consecutive calls with those arguments from a fresh
decorator state of capacity at least 1 record exactly 1 miss and `n - 1` hits,
invoke the underlying function exactly once, and `cache_info` reports those
counters with one live entry.  (The non-`None` hypothesis is necessary: see
the counterexample for `None`-returning functions.) -/
theorem C3_repeated_calls {ν ε : Type}
    (f : List PyVal → List (String × PyVal) → Except ε (Option ν)) (typed : Bool)
    (ms : Int) (hms : 1 ≤ ms) (a : List PyVal) (kw : List (String × PyVal)) (v : ν)
    (hf : f a kw = Except.ok (some v)) (n : Nat) (hn : 1 ≤ n) :
    (runW f typed (List.replicate n (a, kw)) (initW ν ms)).misses = 1 ∧
    (runW f typed (List.replicate n (a, kw)) (initW ν ms)).hits = n - 1 ∧
    (runW f typed (List.replicate n (a, kw)) (initW ν ms)).fcalls = 1 ∧
    cache_info ms (runW f typed (List.replicate n (a, kw)) (initW ν ms)) =
      ⟨n - 1, 1, ms, 1⟩ := by
  obtain ⟨j, rfl⟩ : ∃ j, n = j + 1 := ⟨n - 1, by omega⟩
  have hstep : runW f typed (List.replicate (j + 1) (a, kw)) (initW ν ms) =
      runW f typed (List.replicate j (a, kw)) (wrapper f typed (initW ν ms) a kw).2 := by
    rw [List.replicate_succ]
    rfl
  obtain ⟨w1, w2, w3, w4, w5, w6⟩ := wrapper_first_miss f typed ms hms a kw (some v) hf
  have hlook : agetB pyKeyEq (wrapper f typed (initW ν ms) a kw).2.cache.data
      (_normalize_key a kw typed) = some 2 := by
    rw [w2]
    simp [agetB, pyKeyEq_refl]
  obtain ⟨a1, a2, a3, a4⟩ :=
    runW_hits_aux f typed a kw v j (wrapper f typed (initW ν ms) a kw).2 hlook w3
  have hlen : (runW f typed (List.replicate j (a, kw))
      (wrapper f typed (initW ν ms) a kw).2).cache.data.length = 1 := by
    rw [a4, w2]
    rfl
  rw [hstep]
  refine ⟨?_, ?_, ?_, ?_⟩
  · rw [a1, w5]
  · rw [a2, w4]
    omega
  · rw [a3, w6]
  · simp [cache_info, a1, a2, w4, w5, hlen]

/-- C3 counterexample: the hit test `cached is not None` makes a `None`-valued
result invisible, so with a function returning `None` two identical calls are
two misses and two invocations, not 1 miss and 1 hit. -/
theorem C3_counterexample :
    (runW (fun _ _ => (Except.ok none : Except Unit (Option Nat))) false
        (List.replicate 2 ([PyVal.int 1], [])) (initW Nat 2)).misses = 2 ∧
    (runW (fun _ _ => (Except.ok none : Except Unit (Option Nat))) false
        (List.replicate 2 ([PyVal.int 1], [])) (initW Nat 2)).hits = 0 ∧
    (runW (fun _ _ => (Except.ok none : Except Unit (Option Nat))) false
        (List.replicate 2 ([PyVal.int 1], [])) (initW Nat 2)).fcalls = 2 := by
  decide

/-- C3 witness: three identical calls of a constant non-`None` function. -/
theorem C3_repeated_calls_witness :
    ((1 : Int) ≤ 2 ∧
      ((fun _ _ => (Except.ok (some 7) : Except Unit (Option Nat))) :
          List PyVal → List (String × PyVal) → Except Unit (Option Nat)) [PyVal.int 1] [] =
        Except.ok (some 7) ∧
      1 ≤ 3) ∧
    ((runW (fun _ _ => (Except.ok (some 7) : Except Unit (Option Nat))) false
        (List.replicate 3 ([PyVal.int 1], [])) (initW Nat 2)).misses = 1 ∧
      (runW (fun _ _ => (Except.ok (some 7) : Except Unit (Option Nat))) false
        (List.replicate 3 ([PyVal.int 1], [])) (initW Nat 2)).hits = 3 - 1 ∧
      (runW (fun _ _ => (Except.ok (some 7) : Except Unit (Option Nat))) false
        (List.replicate 3 ([PyVal.int 1], [])) (initW Nat 2)).fcalls = 1 ∧
      cache_info 2 (runW (fun _ _ => (Except.ok (some 7) : Except Unit (Option Nat))) false
        (List.replicate 3 ([PyVal.int 1], [])) (initW Nat 2)) = ⟨3 - 1, 1, 2, 1⟩) :=
  ⟨⟨by decide, rfl, by decide⟩,
    C3_repeated_calls (fun _ _ => (Except.ok (some 7) : Except Unit (Option Nat))) false
      2 (by decide) [PyVal.int 1] [] 7 rfl 3 (by decide)⟩
